import Mathlib

/-!
# The version-certificate store

A shallow embedding of `consensus/istanbul/backend/internal/enodes/version_certificate_db.go`:
the `VersionCertificateDB` operations (`Upsert`, `Get`, `GetVersion`, `GetAll`, `Remove`, `Prune`,
`Info`, `iterate`) and the storage codec (`encodeVersionCertificate`,
`decodeVersionCertificate`); of `PriceComparator.Cmp` of `core/currency.go`; and of
`StructLogger.CaptureState` of `core/vm/logger.go`.

The file the embedding follows calls into packages whose sources are not part of the development:
the generic database adapter (`db.GenericDB`), the storage engine behind it (batches, point
lookups, iteration), the RLP coder, the public-key (un)marshalling of `crypto`, `common.Address`
and the key helper `addressKey`.  The adapter and the engine are modelled from the specification
(section 4.4); the coders and the key scheme are taken as a record of functions
(`Collaborators`) whose laws (`Collaborators.LawfulKeys`, `Collaborators.LawfulCodec`) are stated
as hypotheses.
-/

namespace Enodes

/-- A Go byte slice: the list of its bytes. -/
abbrev Bytes := List Nat

/-- The type `common.Address`: a 20-byte array. -/
structure Address where
  bytes : Bytes
  size : bytes.length = 20
  deriving DecidableEq

/-- The type `ecdsa.PublicKey`: the two affine coordinates of a point. -/
structure PublicKey where
  X : Nat
  Y : Nat
  deriving DecidableEq

/-- The type `istanbul.VersionCertificate`: the exported fields `Version` (a Go `uint`) and
`Signature`, and the two cached fields read through `Address()` and `PublicKey()`. -/
structure VersionCertificate where
  Version : Nat
  Signature : Bytes
  address : Address
  pubKey : PublicKey
  deriving DecidableEq

/-- The constructor `istanbul.NewVersionCertificateFromFields(version, signature, address,
publicKey)`. -/
def NewVersionCertificateFromFields (version : Nat) (signature : Bytes) (address : Address)
    (publicKey : PublicKey) : VersionCertificate :=
  { Version := version, Signature := signature, address := address, pubKey := publicKey }

/-- The anonymous struct `content` that `decodeVersionCertificate` decodes into, which is also the
four-element list that `encodeVersionCertificate` encodes, field by field in the same order. -/
structure Content where
  Address : Address
  PublicKey : Bytes
  Version : Nat
  Signature : Bytes
  deriving DecidableEq

/-- Errors of the RLP coder and of `crypto.UnmarshalPubkey`. -/
inductive CodecError where
  | rlp (code : Nat)
  | errInvalidPubkey
  deriving DecidableEq

/-- The errors the store returns: the engine's `leveldb.ErrNotFound`, the adapter's
`errIncorrectEntryType`, a coder error, or any other engine failure. -/
inductive Error where
  | ErrNotFound
  | errIncorrectEntryType
  | codec (e : CodecError)
  | engine (code : Nat)
  deriving DecidableEq

/-- Modelled from the spec: the coders and the key scheme the store calls but whose sources are
missing (`rlp.EncodeToBytes`, `rlp.DecodeBytes`, `crypto.FromECDSAPub`, `crypto.UnmarshalPubkey`,
`common.BytesToAddress`, `common.Address.Hex`, `addressKey` and the constant `dbAddressPrefix`).
The specification fixes their contracts only (sections 4.2, 4.3 and 6), so they are parameters of
the embedding; `validKey` is the set of public keys that are valid curve points. -/
structure Collaborators where
  dbAddressPrefix : Bytes
  addressKey : Address → Bytes
  BytesToAddress : Bytes → Address
  Hex : Address → String
  validKey : PublicKey → Bool
  FromECDSAPub : PublicKey → Bytes
  UnmarshalPubkey : Bytes → Except CodecError PublicKey
  EncodeToBytes : Content → Except CodecError Bytes
  DecodeBytes : Bytes → Except CodecError Content

/-- Modelled from the spec: the contract of the missing key scheme (`addressKey`,
`dbAddressPrefix`, `common.BytesToAddress`; section 4.3).  Keys are the address bytes behind the
fixed prefix, and the address is recovered from its key. -/
structure Collaborators.LawfulKeys (c : Collaborators) : Prop where
  key_under_prefix : ∀ a, c.dbAddressPrefix.isPrefixOf (c.addressKey a) = true
  address_of_key : ∀ a, c.BytesToAddress (c.addressKey a) = a

/-- Modelled from the spec: the contract of the missing coders (`rlp`, `crypto`; section 4.2).  A
valid public key survives marshalling, and the ordered encoding of the four fields always succeeds
and decodes to the same fields. -/
structure Collaborators.LawfulCodec (c : Collaborators) : Prop where
  pubkey_roundtrip : ∀ pk, c.validKey pk = true → c.UnmarshalPubkey (c.FromECDSAPub pk) = .ok pk
  rlp_roundtrip : ∀ x, ∃ b, c.EncodeToBytes x = .ok b ∧ c.DecodeBytes b = .ok x

/-- Modelled from the spec: the contract of the missing decoder on truncated input (section 4.2:
decoding fails with a decode error on truncated input).  No proper prefix of an encoding
decodes. -/
def Collaborators.RejectsTruncation (c : Collaborators) : Prop :=
  ∀ x b p, c.EncodeToBytes x = .ok b → p <+: b → p ≠ b → ∃ err, c.DecodeBytes p = .error err

/-- A certificate is well formed when its public key is a valid one. -/
def VersionCertificate.WellFormed (c : Collaborators) (vc : VersionCertificate) : Prop :=
  c.validKey vc.pubKey = true

/-! ## The storage engine and the generic adapter -/

/-- Modelled from the spec: the persisted contents of the storage engine (missing: the leveldb
handle inside `db.GenericDB`), as the list of the key/value entries in the order of iteration.  The
specification leaves that order to the engine; the model keeps the entries in bytewise key
order. -/
abbrev Store := List (Bytes × Bytes)

/-- Modelled from the spec: the engine's point lookup `get(key) -> bytes | NotFound`. -/
def Store.get : Store → Bytes → Option Bytes
  | [], _ => none
  | (k, v) :: rest, key => if k = key then some v else Store.get rest key

/-- Modelled from the spec: the effect of a staged `put` once committed; the entry replaces the
one with the same key or is inserted at its place in key order. -/
def Store.put (key value : Bytes) : Store → Store
  | [] => [(key, value)]
  | (k, v) :: rest =>
    if key < k then (key, value) :: (k, v) :: rest
    else if k = key then (key, value) :: rest
    else (k, v) :: Store.put key value rest

/-- Modelled from the spec: the effect of a staged `delete` once committed. -/
def Store.delete (key : Bytes) (s : Store) : Store :=
  s.filter (fun kv => decide (kv.1 ≠ key))

/-- Modelled from the spec: one operation staged into a `leveldb.Batch`. -/
inductive BatchOp where
  | Put (key value : Bytes)
  | Delete (key : Bytes)
  deriving DecidableEq

/-- Modelled from the spec: a `leveldb.Batch`, the staged operations in staging order. -/
abbrev Batch := List BatchOp

/-- Modelled from the spec: the effect of one committed batch operation. -/
def BatchOp.apply (s : Store) : BatchOp → Store
  | .Put key value => Store.put key value s
  | .Delete key => Store.delete key s

/-- The key that a staged operation puts or deletes. -/
def BatchOp.key : BatchOp → Bytes
  | .Put key _ => key
  | .Delete key => key

/-- Modelled from the spec: the effect of a committed batch, its operations in staging order. -/
def Batch.apply (s : Store) (batch : Batch) : Store :=
  batch.foldl BatchOp.apply s

/-- Modelled from the spec: the missing `db.GenericDB`, the persisted entries together with the
failures the engine may report (`EngineError`): of a lookup, of a batch commit, of an iteration. -/
structure GenericDB where
  db : Store
  getFault : Option Nat
  writeFault : Option Nat
  iterFault : Option Nat
  deriving DecidableEq

/-- A database over the given entries whose engine reports no failure. -/
def GenericDB.healthy (s : Store) : GenericDB :=
  { db := s, getFault := none, writeFault := none, iterFault := none }

/-- Modelled from the spec: the missing `GenericDB.Get`, `get(key) -> bytes | NotFound`. -/
def GenericDB.Get (gdb : GenericDB) (key : Bytes) : Except Error Bytes :=
  match gdb.getFault with
  | some code => .error (.engine code)
  | none =>
    match gdb.db.get key with
    | some value => .ok value
    | none => .error .ErrNotFound

/-- Modelled from the spec: the missing `GenericDB.Write`, `writeBatch(batch) -> err`, atomic
across all operations in the batch: on failure the result is the error and the database is the one
before the call. -/
def GenericDB.Write (gdb : GenericDB) (batch : Batch) : GenericDB × Except Error Unit :=
  match gdb.writeFault with
  | some code => (gdb, .error (.engine code))
  | none => ({ gdb with db := Batch.apply gdb.db batch }, .ok ())

/-- Modelled from the spec: the visits of the missing `GenericDB.Iterate`; the visitor is called
on the entries in order and the first visitor error aborts.  The state `σ` stands for the
variables the Go closure captures: the result is their value when the visits end, with the error
of the visitor that aborted them, if any. -/
def GenericDB.visit {σ : Type} (onEntry : σ → Bytes → Bytes → Except Error σ) :
    List (Bytes × Bytes) → σ → σ × Except Error Unit
  | [], st => (st, .ok ())
  | (key, value) :: rest, st =>
    match onEntry st key value with
    | .error err => (st, .error err)
    | .ok st2 => GenericDB.visit onEntry rest st2

/-- Modelled from the spec: the missing `GenericDB.Iterate`,
`iterate(prefix, visit(key, value) -> err) -> err`, which calls `visit` for every stored entry under
`prefix`, aborts and propagates on the first visitor error, and reports an engine failure. -/
def GenericDB.Iterate {σ : Type} (gdb : GenericDB) (keyPrefix : Bytes)
    (onEntry : σ → Bytes → Bytes → Except Error σ) (init : σ) : σ × Except Error Unit :=
  match GenericDB.visit onEntry (gdb.db.filter (fun kv => keyPrefix.isPrefixOf kv.1)) init with
  | (st, .error err) => (st, .error err)
  | (st, .ok _) =>
    match gdb.iterFault with
    | some code => (st, .error (.engine code))
    | none => (st, .ok ())

/-- The interface type `db.GenericEntry`: a version certificate or a value of any other type. -/
inductive GenericEntry where
  | versionCertificate (vc : VersionCertificate)
  | other (tag : Nat)
  deriving DecidableEq

/-- Modelled from the spec: the loop of the missing `GenericDB.Upsert`.  For each candidate,
independently, the existing record is looked up (absent when the lookup reports `ErrNotFound`);
an absent record hands the candidate to `onNewEntry`, a present one to `onUpdatedEntry`, any other
lookup error aborts.  The state is the batch with the variables the Go closures capture. -/
def GenericDB.upsertEntries {σ : Type}
    (getExistingEntry : GenericEntry → Except Error GenericEntry)
    (onUpdatedEntry : Batch × σ → GenericEntry → GenericEntry → Except Error (Batch × σ))
    (onNewEntry : Batch × σ → GenericEntry → Except Error (Batch × σ)) :
    List GenericEntry → Batch × σ → Except Error (Batch × σ)
  | [], st => .ok st
  | entry :: rest, st =>
    match (match getExistingEntry entry with
      | .error .ErrNotFound => onNewEntry st entry
      | .error err => .error err
      | .ok existingEntry => onUpdatedEntry st existingEntry entry) with
    | .error err => .error err
    | .ok st2 => GenericDB.upsertEntries getExistingEntry onUpdatedEntry onNewEntry rest st2

/-- Modelled from the spec: the missing `GenericDB.Upsert`.  All accepted candidates of the whole
input are staged into a single batch and committed together; an error leaves the database as it
was. -/
def GenericDB.Upsert {σ : Type} (gdb : GenericDB) (entries : List GenericEntry)
    (getExistingEntry : GenericEntry → Except Error GenericEntry)
    (onUpdatedEntry : Batch × σ → GenericEntry → GenericEntry → Except Error (Batch × σ))
    (onNewEntry : Batch × σ → GenericEntry → Except Error (Batch × σ))
    (captured : σ) : GenericDB × Except Error σ :=
  match GenericDB.upsertEntries getExistingEntry onUpdatedEntry onNewEntry entries
      ([], captured) with
  | .error err => (gdb, .error err)
  | .ok (batch, st) =>
    match gdb.Write batch with
    | (gdb2, .error err) => (gdb2, .error err)
    | (gdb2, .ok _) => (gdb2, .ok st)

/-! ## The version-certificate database -/

/-- The function `versionCertificateEntryFromGenericEntry`. -/
def versionCertificateEntryFromGenericEntry : GenericEntry → Except Error VersionCertificate
  | .versionCertificate signedAnnVersionEntry => .ok signedAnnVersionEntry
  | .other _ => .error .errIncorrectEntryType

/-- The function `decodeVersionCertificate`. -/
def decodeVersionCertificate (c : Collaborators) (value : Bytes) :
    Except Error VersionCertificate :=
  match c.DecodeBytes value with
  | .error err => .error (.codec err)
  | .ok content =>
    match c.UnmarshalPubkey content.PublicKey with
    | .error err => .error (.codec err)
    | .ok decodedPublicKey =>
      .ok (NewVersionCertificateFromFields content.Version content.Signature content.Address
        decodedPublicKey)

/-- The function `encodeVersionCertificate`. -/
def encodeVersionCertificate (c : Collaborators) (vc : VersionCertificate) : Except Error Bytes :=
  match c.EncodeToBytes
      { Address := vc.address, PublicKey := c.FromECDSAPub vc.pubKey, Version := vc.Version,
        Signature := vc.Signature } with
  | .error err => .error (.codec err)
  | .ok b => .ok b

/-- The type `VersionCertificateDB`: the generic database it wraps (the logger is left out). -/
abbrev VersionCertificateDB := GenericDB

/-- The method `VersionCertificateDB.Get`. -/
def VersionCertificateDB.Get (c : Collaborators) (svdb : VersionCertificateDB)
    (address : Address) : Except Error VersionCertificate :=
  match GenericDB.Get svdb (c.addressKey address) with
  | .error err => .error err
  | .ok entryBytes => decodeVersionCertificate c entryBytes

/-- The method `VersionCertificateDB.GetVersion`. -/
def VersionCertificateDB.GetVersion (c : Collaborators) (svdb : VersionCertificateDB)
    (address : Address) : Except Error Nat :=
  match VersionCertificateDB.Get c svdb address with
  | .error err => .error err
  | .ok signedAnnVersion => .ok signedAnnVersion.Version

/-- The closure `getExistingEntry` of `Upsert`. -/
def Upsert.getExistingEntry (c : Collaborators) (svdb : VersionCertificateDB)
    (entry : GenericEntry) : Except Error GenericEntry :=
  match versionCertificateEntryFromGenericEntry entry with
  | .error err => .error err
  | .ok savEntry =>
    match VersionCertificateDB.Get c svdb savEntry.address with
    | .error err => .error err
    | .ok existing => .ok (.versionCertificate existing)

/-- The closure `onNewEntry` of `Upsert`; the second component of the state is the captured
slice `newEntries`. -/
def Upsert.onNewEntry (c : Collaborators) (st : Batch × List VersionCertificate)
    (entry : GenericEntry) : Except Error (Batch × List VersionCertificate) :=
  match versionCertificateEntryFromGenericEntry entry with
  | .error err => .error err
  | .ok savEntry =>
    match encodeVersionCertificate c savEntry with
    | .error err => .error err
    | .ok savEntryBytes =>
      .ok (st.1 ++ [BatchOp.Put (c.addressKey savEntry.address) savEntryBytes],
        st.2 ++ [savEntry])

/-- The closure `onUpdatedEntry` of `Upsert`. -/
def Upsert.onUpdatedEntry (c : Collaborators) (st : Batch × List VersionCertificate)
    (existingEntry newEntry : GenericEntry) : Except Error (Batch × List VersionCertificate) :=
  match versionCertificateEntryFromGenericEntry existingEntry with
  | .error err => .error err
  | .ok existingSav =>
    match versionCertificateEntryFromGenericEntry newEntry with
    | .error err => .error err
    | .ok newSav =>
      if newSav.Version ≤ existingSav.Version then .ok st
      else Upsert.onNewEntry c st newEntry

/-- The method `VersionCertificateDB.Upsert`: the database after the call, and the returned
`newEntries` or the returned error. -/
def VersionCertificateDB.Upsert (c : Collaborators) (svdb : VersionCertificateDB)
    (savEntries : List VersionCertificate) :
    VersionCertificateDB × Except Error (List VersionCertificate) :=
  GenericDB.Upsert svdb (savEntries.map GenericEntry.versionCertificate)
    (Upsert.getExistingEntry c svdb) (Upsert.onUpdatedEntry c) (Upsert.onNewEntry c) []

/-- The closure `onDBEntry` of `iterate`; the state `σ` stands for the variables the Go visitor
`onEntry` captures. -/
def iterate.onDBEntry {σ : Type} (c : Collaborators)
    (onEntry : σ → Address → VersionCertificate → Except Error σ) (st : σ) (key value : Bytes) :
    Except Error σ :=
  match decodeVersionCertificate c value with
  | .error err => .error err
  | .ok entry => onEntry st (c.BytesToAddress key) entry

/-- The method `VersionCertificateDB.iterate`: the value of the variables that `onEntry`
captures when the iteration returns, and the returned error, if any. -/
def VersionCertificateDB.iterate {σ : Type} (c : Collaborators) (svdb : VersionCertificateDB)
    (onEntry : σ → Address → VersionCertificate → Except Error σ) (init : σ) :
    σ × Except Error Unit :=
  GenericDB.Iterate svdb c.dbAddressPrefix (iterate.onDBEntry c onEntry) init

/-- The visitor of `Prune`: the state is the batch of staged deletions. -/
def Prune.onEntry (c : Collaborators) (addressesToKeep : Address → Bool) (batch : Batch)
    (address : Address) (_entry : VersionCertificate) : Except Error Batch :=
  if !addressesToKeep address then .ok (batch ++ [BatchOp.Delete (c.addressKey address)])
  else .ok batch

/-- The method `VersionCertificateDB.Prune`; the Go map `addressesToKeep` is its lookup function,
false on an address that is not a key of the map. -/
def VersionCertificateDB.Prune (c : Collaborators) (svdb : VersionCertificateDB)
    (addressesToKeep : Address → Bool) : VersionCertificateDB × Except Error Unit :=
  match VersionCertificateDB.iterate c svdb (Prune.onEntry c addressesToKeep) [] with
  | (_, .error err) => (svdb, .error err)
  | (batch, .ok _) => GenericDB.Write svdb batch

/-- The visitor of `GetAll`: the state is the captured slice `entries`. -/
def GetAll.onEntry (entries : List VersionCertificate) (_address : Address)
    (entry : VersionCertificate) : Except Error (List VersionCertificate) :=
  .ok (entries ++ [entry])

/-- The method `VersionCertificateDB.GetAll`: the returned slice (the nil slice is the empty
list) and the returned error, if any. -/
def VersionCertificateDB.GetAll (c : Collaborators) (svdb : VersionCertificateDB) :
    List VersionCertificate × Except Error Unit :=
  match VersionCertificateDB.iterate c svdb GetAll.onEntry [] with
  | (_, .error err) => ([], .error err)
  | (entries, .ok _) => (entries, .ok ())

/-- The method `VersionCertificateDB.Remove`. -/
def VersionCertificateDB.Remove (c : Collaborators) (svdb : VersionCertificateDB)
    (address : Address) : VersionCertificateDB × Except Error Unit :=
  GenericDB.Write svdb [BatchOp.Delete (c.addressKey address)]

/-- The type `VersionCertificateEntryInfo`. -/
structure VersionCertificateEntryInfo where
  Address : String
  Version : Nat
  deriving DecidableEq

/-- The Go map `map[string]*VersionCertificateEntryInfo`: its entries, each key once, in the order
in which the keys were first assigned. -/
abbrev InfoMap := List (String × VersionCertificateEntryInfo)

/-- The assignment `m[key] = value` of a Go map. -/
def InfoMap.set (key : String) (value : VersionCertificateEntryInfo) : InfoMap → InfoMap
  | [] => [(key, value)]
  | (k, v) :: rest =>
    if k = key then (key, value) :: rest else (k, v) :: InfoMap.set key value rest

/-- The visitor of `Info`: the state is the captured map `dbInfo`. -/
def Info.onEntry (c : Collaborators) (dbInfo : InfoMap) (address : Address)
    (entry : VersionCertificate) : Except Error InfoMap :=
  .ok (InfoMap.set (c.Hex address)
    { Address := c.Hex entry.address, Version := entry.Version } dbInfo)

/-- The method `VersionCertificateDB.Info`: it returns the map `dbInfo` as the iteration left it,
together with the error of the iteration, if any. -/
def VersionCertificateDB.Info (c : Collaborators) (svdb : VersionCertificateDB) :
    InfoMap × Except Error Unit :=
  VersionCertificateDB.iterate c svdb (Info.onEntry c) []

/-- The loop that `Upsert` runs: the generic loop with the three closures of `Upsert`. -/
abbrev Upsert.loop (c : Collaborators) (svdb : VersionCertificateDB) :
    List GenericEntry → Batch × List VersionCertificate →
      Except Error (Batch × List VersionCertificate) :=
  GenericDB.upsertEntries (Upsert.getExistingEntry c svdb) (Upsert.onUpdatedEntry c)
    (Upsert.onNewEntry c)

/-- The candidates `Upsert` accepts according to the specification: those for which the database
before the call holds no record for the address, or holds a record of a strictly lower version. -/
def accepts (c : Collaborators) (svdb : VersionCertificateDB) (candidate : VersionCertificate) :
    Bool :=
  match VersionCertificateDB.Get c svdb candidate.address with
  | .error .ErrNotFound => true
  | .error _ => false
  | .ok existing => decide (existing.Version < candidate.Version)

/-- The puts that `Upsert` stages for a list of accepted candidates, in input order: each under
the key of the address of the candidate, with its encoding as the value. -/
def Upsert.stagedPuts (c : Collaborators) : List VersionCertificate → Batch
  | [] => []
  | x :: rest =>
    match encodeVersionCertificate c x with
    | .ok b => BatchOp.Put (c.addressKey x.address) b :: Upsert.stagedPuts c rest
    | .error _ => Upsert.stagedPuts c rest

/-- Whether a stored value decodes. -/
def decodes (c : Collaborators) (value : Bytes) : Bool :=
  match decodeVersionCertificate c value with
  | .ok _ => true
  | .error _ => false

/-- The entries of the database under the version-certificate prefix, in iteration order. -/
def VersionCertificateDB.entries (c : Collaborators) (svdb : VersionCertificateDB) :
    List (Bytes × Bytes) :=
  svdb.db.filter (fun kv => c.dbAddressPrefix.isPrefixOf kv.1)

/-- Whether all values under the version-certificate prefix decode. -/
def VersionCertificateDB.allValuesDecode (c : Collaborators) (svdb : VersionCertificateDB) :
    Bool :=
  (VersionCertificateDB.entries c svdb).all (fun kv => decodes c kv.2)

/-- The keys that `Prune` stages for deletion over a list of visited entries: for each entry
whose key address is not to be kept, the key of that address. -/
def Prune.deletedKeys (c : Collaborators) (addressesToKeep : Address → Bool)
    (visited : List (Bytes × Bytes)) : List Bytes :=
  visited.filterMap (fun kv =>
    if addressesToKeep (c.BytesToAddress kv.1) then none
    else some (c.addressKey (c.BytesToAddress kv.1)))

/-- A step in the life of the store: a call of one of the three methods that write to it, or a
change of the failures the engine reports from then on. -/
inductive StoreStep where
  | Upsert (versionCertificates : List VersionCertificate)
  | Remove (address : Address)
  | Prune (addressesToKeep : Address → Bool)
  | engineHealth (getFault writeFault iterFault : Option Nat)

/-- The database after one step, whatever the call returned. -/
def StoreStep.run (c : Collaborators) (svdb : VersionCertificateDB) :
    StoreStep → VersionCertificateDB
  | .Upsert versionCertificates => (VersionCertificateDB.Upsert c svdb versionCertificates).1
  | .Remove address => (VersionCertificateDB.Remove c svdb address).1
  | .Prune addressesToKeep => (VersionCertificateDB.Prune c svdb addressesToKeep).1
  | .engineHealth getFault writeFault iterFault =>
    { svdb with getFault := getFault, writeFault := writeFault, iterFault := iterFault }

/-- The database reached from a database by a sequence of steps. -/
def reached (c : Collaborators) (start : VersionCertificateDB) (steps : List StoreStep) :
    VersionCertificateDB :=
  steps.foldl (StoreStep.run c) start

/-- Whether a staged operation keeps records under the keys of their addresses: a put is of the
encoding of a certificate under the key of the address of that certificate. -/
def BatchOp.keyOfRecord (c : Collaborators) : BatchOp → Prop
  | .Put key value =>
    ∃ x : VersionCertificate, encodeVersionCertificate c x = .ok value ∧
      key = c.addressKey x.address
  | .Delete _ => True

/-- A store in which every value is the encoding of a certificate and stands under the key of the
address of that certificate, and in which the keys strictly increase. -/
def Store.Consistent (c : Collaborators) (s : Store) : Prop :=
  (∀ kv ∈ s, ∃ x : VersionCertificate, encodeVersionCertificate c x = .ok kv.2 ∧
      kv.1 = c.addressKey x.address) ∧
    s.Pairwise (fun a b => a.1 < b.1)

/-! ## A sample instance of the collaborators

A small instance that satisfies the contracts, on which the definitions above evaluate: keys are
the bytes of the string `address:` followed by the address bytes, a public key is marshalled as the
tag 4 followed by its coordinates and is valid on the curve `y² = x³ + 7` over the field of 17
elements, and the four fields are laid out one after the other, the public key behind its
length, behind the size of the whole. -/

/-- The bytes of the string `address:`. -/
def sampleAddressPrefix : Bytes := [97, 100, 100, 114, 101, 115, 115, 58]

/-- The key of an address: the prefix followed by the address bytes. -/
def sampleAddressKey (a : Address) : Bytes := sampleAddressPrefix ++ a.bytes

/-- The last 20 bytes of a slice, padded with zeros on the left when there are fewer. -/
def sampleBytesToAddress (b : Bytes) : Address :=
  { bytes := List.replicate (20 - (b.drop (b.length - 20)).length) 0 ++ b.drop (b.length - 20)
    size := by simp; omega }

/-- Validity of a sample public key. -/
def sampleValidKey (pk : PublicKey) : Bool :=
  decide (pk.Y * pk.Y % 17 = (pk.X * pk.X * pk.X + 7) % 17)

/-- Marshalling of a sample public key. -/
def sampleFromECDSAPub (pk : PublicKey) : Bytes := [4, pk.X, pk.Y]

/-- Unmarshalling of a sample public key. -/
def sampleUnmarshalPubkey : Bytes → Except CodecError PublicKey
  | [4, x, y] =>
    if sampleValidKey { X := x, Y := y } then .ok { X := x, Y := y } else .error .errInvalidPubkey
  | _ => .error .errInvalidPubkey

/-- The four fields laid out one after the other. -/
def samplePayload (x : Content) : Bytes :=
  x.Address.bytes ++ (x.PublicKey.length :: x.PublicKey ++ x.Version :: x.Signature)

/-- The sample encoding of the four fields: their layout behind its size. -/
def sampleEncodeToBytes (x : Content) : Except CodecError Bytes :=
  .ok ((samplePayload x).length :: samplePayload x)

/-- The four fields read back from their layout. -/
def sampleDecodePayload (b : Bytes) : Except CodecError Content :=
  if h : (b.take 20).length = 20 then
    match b.drop 20 with
    | [] => .error (.rlp 1)
    | n :: rest =>
      if n ≤ rest.length then
        match rest.drop n with
        | [] => .error (.rlp 3)
        | v :: sig =>
          .ok { Address := { bytes := b.take 20, size := h }, PublicKey := rest.take n,
                Version := v, Signature := sig }
      else .error (.rlp 2)
  else .error (.rlp 0)

/-- The sample decoding of the four fields: the size has to be the one of the bytes behind it. -/
def sampleDecodeBytes : Bytes → Except CodecError Content
  | [] => .error (.rlp 4)
  | size :: payload =>
    if payload.length = size then sampleDecodePayload payload else .error (.rlp 5)

/-- The sample hexadecimal digit of a number. -/
def sampleHexDigit (n : Nat) : Char :=
  match n % 16 with
  | 0 => '0' | 1 => '1' | 2 => '2' | 3 => '3' | 4 => '4' | 5 => '5' | 6 => '6' | 7 => '7'
  | 8 => '8' | 9 => '9' | 10 => 'a' | 11 => 'b' | 12 => 'c' | 13 => 'd' | 14 => 'e' | _ => 'f'

/-- The sample hexadecimal form of an address: two digits per byte behind `0x`. -/
def sampleHex (a : Address) : String :=
  String.mk ('0' :: 'x' :: a.bytes.flatMap (fun b => [sampleHexDigit (b / 16), sampleHexDigit b]))

/-- The sample collaborators. -/
def sampleCollaborators : Collaborators :=
  { dbAddressPrefix := sampleAddressPrefix
    addressKey := sampleAddressKey
    BytesToAddress := sampleBytesToAddress
    Hex := sampleHex
    validKey := sampleValidKey
    FromECDSAPub := sampleFromECDSAPub
    UnmarshalPubkey := sampleUnmarshalPubkey
    EncodeToBytes := sampleEncodeToBytes
    DecodeBytes := sampleDecodeBytes }

/-- A sample address `A`. -/
def addrA : Address := { bytes := List.replicate 20 1, size := rfl }

/-- A sample address `B`. -/
def addrB : Address := { bytes := List.replicate 20 2, size := rfl }

/-- A sample address `C`. -/
def addrC : Address := { bytes := List.replicate 20 3, size := rfl }

/-- The well-formed sample certificate of an address at a version. -/
def sampleCert (a : Address) (version : Nat) : VersionCertificate :=
  NewVersionCertificateFromFields version [version, 9] a { X := 1, Y := 5 }

/-- A sample certificate of an address at a version whose public key is not on the curve: its
marshalled key does not unmarshal. -/
def sampleBadCert (a : Address) (version : Nat) : VersionCertificate :=
  NewVersionCertificateFromFields version [version, 9] a { X := 1, Y := 1 }

/-- The sample database that holds no entry. -/
def emptyDB : VersionCertificateDB := GenericDB.healthy []

/-- The sample database after the certificates of a list were upserted in one batch. -/
def sampleDB (certs : List VersionCertificate) : VersionCertificateDB :=
  (VersionCertificateDB.Upsert sampleCollaborators emptyDB certs).1

/-- The sample database over the certificates of a list whose engine fails every commit. -/
def commitFailingDB (certs : List VersionCertificate) : VersionCertificateDB :=
  { sampleDB certs with writeFault := some 1 }

/-- The sample database over `A@1` and `C@1` in which the value stored for `B` is corrupt. -/
def corruptDB : VersionCertificateDB :=
  GenericDB.healthy
    (Store.put (sampleAddressKey addrB) [0] (sampleDB [sampleCert addrA 1, sampleCert addrC 1]).db)

/-- The sample keep-set of the addresses `A` and `C`. -/
def keepAC (a : Address) : Bool := decide (a = addrA ∨ a = addrC)

/-- The sample keep-set of the address `C`. -/
def keepC (a : Address) : Bool := decide (a = addrC)

/-- A sample sequence of steps: `A@1`, `B@2` and `C@1` are upserted, `B` is removed, an upsert of
`B@5` meets an engine that fails the commit, the engine recovers, all but `C` is pruned, and
`A@4` is upserted. -/
def sampleSteps : List StoreStep :=
  [.Upsert [sampleCert addrA 1, sampleCert addrB 2, sampleCert addrC 1],
    .Remove addrB,
    .engineHealth none (some 1) none,
    .Upsert [sampleCert addrB 5],
    .engineHealth none none none,
    .Prune keepC,
    .Upsert [sampleCert addrA 4]]

end Enodes

/-! # The price comparator (`core/currency.go`) -/

namespace Core

end Core

/-! # The structured logger (`core/vm/logger.go`) -/

namespace Vm

/-- The type `common.Hash`: the 32 bytes read as a number. -/
abbrev Hash := Nat

/-- The type `OpCode`: a byte. -/
abbrev OpCode := Nat

/-- The type `Storage`, a Go map from hashes to hashes: its entries, each key once. -/
abbrev Storage := List (Hash × Hash)

/-- The lookup `s[key]` of a storage, with whether the key is present. -/
def Storage.get : Storage → Hash → Option Hash
  | [], _ => none
  | (k, v) :: rest, key => if k = key then some v else Storage.get rest key

/-- The assignment `s[key] = value` of a storage. -/
def Storage.set (key value : Hash) : Storage → Storage
  | [] => [(key, value)]
  | (k, v) :: rest =>
    if k = key then (key, value) :: rest else (k, v) :: Storage.set key value rest

/-- The method `Storage.Copy`. -/
def Storage.Copy (s : Storage) : Storage :=
  s.foldl (fun cpy kv => Storage.set kv.1 kv.2 cpy) []

/-- The type `LogConfig`; `Limit` is a Go `int`. -/
structure LogConfig where
  DisableMemory : Bool
  DisableStack : Bool
  DisableStorage : Bool
  Debug : Bool
  Limit : Int
  deriving DecidableEq

/-- The errors of the package: `ErrTraceLimitReached`, or any other error. -/
inductive VmError where
  | ErrTraceLimitReached
  | other (code : Nat)
  deriving DecidableEq

/-- The type `StructLog`; a nil slice or map is the empty list. -/
structure StructLog where
  Pc : Nat
  Op : OpCode
  Gas : Nat
  GasCost : Nat
  Memory : List Nat
  MemorySize : Int
  Stack : List Nat
  ReturnStack : List Nat
  Storage : Storage
  Depth : Int
  RefundCounter : Nat
  Err : Option VmError
  deriving DecidableEq

/-- The Go map `map[common.Address]Storage` of the logger: its entries, each key once. -/
abbrev StorageMap := List (Enodes.Address × Storage)

/-- The lookup `m[address]` of the storages of the logger; `none` is the nil storage of an
address that is not a key. -/
def StorageMap.get : StorageMap → Enodes.Address → Option Storage
  | [], _ => none
  | (k, v) :: rest, address => if k = address then some v else StorageMap.get rest address

/-- The assignment `m[address] = storage` of the storages of the logger. -/
def StorageMap.set (address : Enodes.Address) (storage : Storage) : StorageMap → StorageMap
  | [] => [(address, storage)]
  | (k, v) :: rest =>
    if k = address then (address, storage) :: rest
    else (k, v) :: StorageMap.set address storage rest

/-- The type `StructLogger`. -/
structure StructLogger where
  cfg : LogConfig
  storage : StorageMap
  logs : List StructLog
  output : List Nat
  err : Option VmError
  deriving DecidableEq

/-- The function `NewStructLogger`; `none` is the nil configuration. -/
def NewStructLogger (cfg : Option LogConfig) : StructLogger :=
  { cfg := match cfg with
      | some cfg => cfg
      | none => { DisableMemory := false, DisableStack := false, DisableStorage := false,
                  Debug := false, Limit := 0 }
    storage := []
    logs := []
    output := []
    err := none }

/-- What `CaptureState` reads of its argument `env`: the two methods of `env.StateDB` it calls. -/
structure EVM where
  GetState : Enodes.Address → Hash → Hash
  GetRefund : Nat

/-- What `CaptureState` reads of its argument `memory`: the results of `Data()` and `Len()`. -/
structure Memory where
  Data : List Nat
  Len : Int

/-- The type `Stack`: its items, 256-bit numbers, the top of the stack last. -/
structure Stack where
  data : List Nat

/-- The method `Stack.len`. -/
def Stack.len (st : Stack) : Nat := st.data.length

/-- The type `ReturnStack`. -/
structure ReturnStack where
  data : List Nat

/-- What `CaptureState` reads of its argument `contract`: the result of `Address()`. -/
structure Contract where
  Address : Enodes.Address

/-- The two opcode constants that `CaptureState` compares `op` with; their values are declared
outside the file and are parameters here. -/
structure OpCodes where
  SLOAD : OpCode
  SSTORE : OpCode

/-- The storage tracking of `CaptureState` when storage capture is enabled: the storages of the
logger after the call. -/
def CaptureState.track (ops : OpCodes) (storage : StorageMap) (env : EVM) (op : OpCode)
    (stack : Stack) (contract : Contract) : StorageMap :=
  let s0 :=
    match StorageMap.get storage contract.Address with
    | none => StorageMap.set contract.Address [] storage
    | some _ => storage
  let s1 :=
    if op = ops.SLOAD ∧ stack.len ≥ 1 then
      let address := stack.data.getD (stack.len - 1) 0
      let value := env.GetState contract.Address address
      StorageMap.set contract.Address
        (Storage.set address value ((StorageMap.get s0 contract.Address).getD [])) s0
    else s0
  if op = ops.SSTORE ∧ stack.len ≥ 2 then
    let value := stack.data.getD (stack.len - 2) 0
    let address := stack.data.getD (stack.len - 1) 0
    StorageMap.set contract.Address
      (Storage.set address value ((StorageMap.get s1 contract.Address).getD [])) s1
  else s1

/-- The method `StructLogger.CaptureState`: the logger after the call and the returned error, if
any.  The copy of the return stack is made into the variable `rstck`; the log is built from the
variable `rstack`, which is declared before it and never assigned. -/
def StructLogger.CaptureState (ops : OpCodes) (l : StructLogger) (env : EVM) (pc : Nat)
    (op : OpCode) (gas cost : Nat) (memory : Memory) (stack : Stack)
    (rStack : Option ReturnStack) (contract : Contract) (depth : Int) (err : Option VmError) :
    StructLogger × Option VmError :=
  if l.cfg.Limit ≠ 0 ∧ l.cfg.Limit ≤ (l.logs.length : Int) then
    (l, some .ErrTraceLimitReached)
  else
    let mem : List Nat := if !l.cfg.DisableMemory then memory.Data else []
    let stck : List Nat := if !l.cfg.DisableStack then stack.data else []
    let rstack : List Nat := []
    let _rstck : List Nat :=
      match rStack with
      | some rs => if !l.cfg.DisableStack then rs.data else []
      | none => []
    let tracked : StorageMap :=
      if !l.cfg.DisableStorage then CaptureState.track ops l.storage env op stack contract
      else l.storage
    let storage : Storage :=
      if !l.cfg.DisableStorage then
        Storage.Copy ((StorageMap.get tracked contract.Address).getD [])
      else []
    let log : StructLog :=
      { Pc := pc, Op := op, Gas := gas, GasCost := cost, Memory := mem, MemorySize := memory.Len,
        Stack := stck, ReturnStack := rstack, Storage := storage, Depth := depth,
        RefundCounter := env.GetRefund, Err := err }
    ({ l with storage := tracked, logs := l.logs ++ [log] }, none)

/-- The arguments of one call of `CaptureState`. -/
structure Call where
  env : EVM
  pc : Nat
  op : OpCode
  gas : Nat
  cost : Nat
  memory : Memory
  stack : Stack
  rStack : Option ReturnStack
  contract : Contract
  depth : Int
  err : Option VmError

/-- One call of `CaptureState` on the arguments of a `Call`. -/
def StructLogger.capture (ops : OpCodes) (l : StructLogger) (call : Call) :
    StructLogger × Option VmError :=
  StructLogger.CaptureState ops l call.env call.pc call.op call.gas call.cost call.memory
    call.stack call.rStack call.contract call.depth call.err

/-- The logger after a sequence of calls of `CaptureState`, whatever each of them returned. -/
def StructLogger.captureAll (ops : OpCodes) (l : StructLogger) (calls : List Call) :
    StructLogger :=
  calls.foldl (fun l call => (StructLogger.capture ops l call).1) l

/-- Sample opcode constants. -/
def sampleOpCodes : OpCodes := { SLOAD := 84, SSTORE := 85 }

/-- A sample call: a store of the value 7 at the slot 3 of the contract `A`. -/
def sampleCall : Call :=
  { env := { GetState := fun _ _ => 0, GetRefund := 0 }
    pc := 0
    op := 85
    gas := 100
    cost := 5
    memory := { Data := [1, 2], Len := 2 }
    stack := { data := [7, 3] }
    rStack := some { data := [4] }
    contract := { Address := Enodes.addrA }
    depth := 1
    err := none }

/-- A sample configuration with the given limit. -/
def sampleConfig (limit : Int) : LogConfig :=
  { DisableMemory := false, DisableStack := false, DisableStorage := false, Debug := false,
    Limit := limit }

end Vm

namespace Enodes

/-! ## Lemmas on the engine model -/

theorem Store.get_put_same (key value : Bytes) (s : Store) :
    (Store.put key value s).get key = some value := by
  induction s with
  | nil => simp [Store.put, Store.get]
  | cons kv rest ih =>
    obtain ⟨k, v⟩ := kv
    by_cases h1 : key < k
    · simp [Store.put, Store.get, h1]
    · by_cases h2 : k = key
      · simp [Store.put, Store.get, h1, h2]
      · simp [Store.put, Store.get, h1, h2, ih]

theorem Store.get_put_other (key value other : Bytes) (s : Store) (h : other ≠ key) :
    (Store.put key value s).get other = s.get other := by
  induction s with
  | nil => simp [Store.put, Store.get, Ne.symm h]
  | cons kv rest ih =>
    obtain ⟨k, v⟩ := kv
    by_cases h1 : key < k
    · simp [Store.put, Store.get, h1, Ne.symm h]
    · by_cases h2 : k = key
      · subst h2
        simp [Store.put, Store.get, h1, Ne.symm h]
      · simp [Store.put, Store.get, h1, h2, ih]

theorem Store.get_delete_same (key : Bytes) (s : Store) : (Store.delete key s).get key = none := by
  induction s with
  | nil => simp [Store.delete, Store.get]
  | cons kv rest ih =>
    obtain ⟨k, v⟩ := kv
    by_cases h : k = key
    · simpa [Store.delete, h] using ih
    · simpa [Store.delete, List.filter_cons, h, Store.get] using ih

theorem Store.get_delete_other (key other : Bytes) (s : Store) (h : other ≠ key) :
    (Store.delete key s).get other = s.get other := by
  induction s with
  | nil => simp [Store.delete, Store.get]
  | cons kv rest ih =>
    obtain ⟨k, v⟩ := kv
    by_cases h1 : k = key
    · subst h1
      simpa [Store.delete, Store.get, Ne.symm h] using ih
    · by_cases h2 : k = other
      · subst h2
        simp [Store.delete, List.filter_cons, h, Store.get]
      · simpa [Store.delete, List.filter_cons, h1, Store.get, h2] using ih

/-! ## The sample collaborators satisfy the contracts -/

theorem sampleBytesToAddress_key (a : Address) :
    sampleBytesToAddress (sampleAddressKey a) = a := by
  obtain ⟨bytes, size⟩ := a
  have h1 : (sampleAddressPrefix ++ bytes).length - 20 = sampleAddressPrefix.length := by
    simp [sampleAddressPrefix, size]
  have h2 : (sampleAddressPrefix ++ bytes).drop ((sampleAddressPrefix ++ bytes).length - 20)
      = bytes := by
    rw [h1]
    exact List.drop_left' rfl
  simp only [sampleBytesToAddress, sampleAddressKey, h2, size]
  simp

theorem sampleDecodeBytes_encode (x : Content) :
    ∃ b, sampleEncodeToBytes x = .ok b ∧ sampleDecodeBytes b = .ok x := by
  obtain ⟨⟨bytes, size⟩, pk, v, sig⟩ := x
  refine ⟨_, rfl, ?_⟩
  simp only [sampleDecodeBytes, samplePayload, if_true]
  have h1 : (bytes ++ (pk.length :: pk ++ v :: sig)).take 20 = bytes := List.take_left' size
  have h2 : (bytes ++ (pk.length :: pk ++ v :: sig)).drop 20 = pk.length :: pk ++ v :: sig :=
    List.drop_left' size
  have h3 : pk.length ≤ (pk ++ v :: sig).length := by simp
  have h4 : (pk ++ v :: sig).drop pk.length = v :: sig := List.drop_left' rfl
  have h5 : (pk ++ v :: sig).take pk.length = pk := List.take_left' rfl
  unfold sampleDecodePayload
  simp only [h1, h2, size]
  simp only [List.cons_append] at h3 h4 h5 ⊢
  simp [h3, h4, h5]

theorem sampleCollaborators_lawfulKeys : sampleCollaborators.LawfulKeys where
  key_under_prefix := by
    intro a
    simp [sampleCollaborators, sampleAddressKey]
  address_of_key := sampleBytesToAddress_key

theorem sampleCollaborators_lawfulCodec : sampleCollaborators.LawfulCodec where
  pubkey_roundtrip := by
    intro pk h
    obtain ⟨x, y⟩ := pk
    simp only [sampleCollaborators] at h
    simp [sampleCollaborators, sampleFromECDSAPub, sampleUnmarshalPubkey, h]
  rlp_roundtrip := sampleDecodeBytes_encode

theorem sampleCollaborators_rejectsTruncation : sampleCollaborators.RejectsTruncation := by
  intro x b p hb hp hne
  have hb2 : b = (samplePayload x).length :: samplePayload x := by
    have h : sampleEncodeToBytes x = .ok b := hb
    simp only [sampleEncodeToBytes] at h
    exact (Except.ok.inj h).symm
  subst hb2
  cases p with
  | nil => exact ⟨.rlp 4, rfl⟩
  | cons size payload =>
    obtain ⟨rest, hrest⟩ := hp
    simp only [List.cons_append, List.cons.injEq] at hrest
    obtain ⟨hsize, hpayload⟩ := hrest
    have hlen : payload.length ≠ size := by
      intro h
      apply hne
      have hl := congrArg List.length hpayload
      rw [List.length_append, h, hsize] at hl
      have hnil : rest = [] := List.eq_nil_of_length_eq_zero (by omega)
      rw [hnil, List.append_nil] at hpayload
      rw [hsize, hpayload]
    refine ⟨.rlp 5, ?_⟩
    show sampleDecodeBytes (size :: payload) = _
    simp [sampleDecodeBytes, hlen]

theorem sampleCert_wellFormed (a : Address) (version : Nat) :
    (sampleCert a version).WellFormed sampleCollaborators := by
  simp [VersionCertificate.WellFormed, sampleCert, NewVersionCertificateFromFields,
    sampleCollaborators, sampleValidKey]

/-! ## Lemmas on the codec -/

theorem Collaborators.LawfulKeys.addressKey_injective {c : Collaborators}
    (hc : c.LawfulKeys)
    {a b : Address} (h : c.addressKey a = c.addressKey b) : a = b := by
  have := congrArg c.BytesToAddress h
  rwa [hc.address_of_key, hc.address_of_key] at this

theorem encodeVersionCertificate_total {c : Collaborators} (hc : c.LawfulCodec)
    (vc : VersionCertificate) : ∃ b, encodeVersionCertificate c vc = .ok b := by
  obtain ⟨b, hb, -⟩ := hc.rlp_roundtrip
    { Address := vc.address, PublicKey := c.FromECDSAPub vc.pubKey, Version := vc.Version,
      Signature := vc.Signature }
  exact ⟨b, by simp [encodeVersionCertificate, hb]⟩

theorem decode_of_encode {c : Collaborators} (hc : c.LawfulCodec) (vc : VersionCertificate)
    (hwf : vc.WellFormed c) (b : Bytes) (hb : encodeVersionCertificate c vc = .ok b) :
    decodeVersionCertificate c b = .ok vc := by
  obtain ⟨b2, hb2, hdec⟩ := hc.rlp_roundtrip
    { Address := vc.address, PublicKey := c.FromECDSAPub vc.pubKey, Version := vc.Version,
      Signature := vc.Signature }
  have hbb : b2 = b := by
    simp only [encodeVersionCertificate, hb2] at hb
    exact Except.ok.inj hb
  subst hbb
  have hpk := hc.pubkey_roundtrip vc.pubKey hwf
  simp [decodeVersionCertificate, hdec, hpk, NewVersionCertificateFromFields]

/-- The encoding of a certificate decodes, field by field, to the four fields that were
encoded. -/
theorem decodeBytes_of_encode {c : Collaborators} (hc : c.LawfulCodec) (x : VersionCertificate)
    (b : Bytes) (hb : encodeVersionCertificate c x = .ok b) :
    c.DecodeBytes b = .ok
      { Address := x.address, PublicKey := c.FromECDSAPub x.pubKey, Version := x.Version,
        Signature := x.Signature } := by
  obtain ⟨b2, hb2, hdec⟩ := hc.rlp_roundtrip
    { Address := x.address, PublicKey := c.FromECDSAPub x.pubKey, Version := x.Version,
      Signature := x.Signature }
  have hbb : b2 = b := by
    simp only [encodeVersionCertificate, hb2] at hb
    exact Except.ok.inj hb
  rw [← hbb]
  exact hdec

/-- A record that `decodeVersionCertificate` returns has the version and the address of the four
fields that the value decodes to. -/
theorem decode_content {c : Collaborators} {b : Bytes} {r : VersionCertificate}
    (hr : decodeVersionCertificate c b = .ok r) :
    ∃ content, c.DecodeBytes b = .ok content ∧ r.Version = content.Version ∧
      r.address = content.Address := by
  unfold decodeVersionCertificate at hr
  cases hd : c.DecodeBytes b with
  | error err => simp [hd] at hr
  | ok content =>
    simp only [hd] at hr
    cases hpk : c.UnmarshalPubkey content.PublicKey with
    | error err => simp [hpk] at hr
    | ok pk =>
      simp only [hpk] at hr
      have := Except.ok.inj hr
      rw [← this]
      exact ⟨content, rfl, rfl, rfl⟩

/-- An error of `decodeVersionCertificate` is an error of a coder, never `ErrNotFound`. -/
theorem decode_error_ne_notFound {c : Collaborators} {b : Bytes} {err : Error}
    (h : decodeVersionCertificate c b = .error err) : err ≠ .ErrNotFound := by
  unfold decodeVersionCertificate at h
  cases hd : c.DecodeBytes b with
  | error e =>
    simp only [hd] at h
    rw [← Except.error.inj h]
    simp
  | ok content =>
    simp only [hd] at h
    cases hpk : c.UnmarshalPubkey content.PublicKey with
    | error e =>
      simp only [hpk] at h
      rw [← Except.error.inj h]
      simp
    | ok pk => simp [hpk] at h

/-! ## Lemmas on `Upsert` -/

theorem Upsert.loop_nil (c : Collaborators) (svdb : VersionCertificateDB)
    (st : Batch × List VersionCertificate) : Upsert.loop c svdb [] st = .ok st := rfl

theorem Upsert.loop_cons_absent (c : Collaborators) (svdb : VersionCertificateDB)
    (x : VersionCertificate) (rest : List GenericEntry) (st : Batch × List VersionCertificate)
    (b : Bytes) (hget : VersionCertificateDB.Get c svdb x.address = .error .ErrNotFound)
    (henc : encodeVersionCertificate c x = .ok b) :
    Upsert.loop c svdb (.versionCertificate x :: rest) st
      = Upsert.loop c svdb rest
          (st.1 ++ [BatchOp.Put (c.addressKey x.address) b], st.2 ++ [x]) := by
  simp [Upsert.loop, GenericDB.upsertEntries, Upsert.getExistingEntry, Upsert.onNewEntry,
    versionCertificateEntryFromGenericEntry, hget, henc]

theorem Upsert.loop_cons_newer (c : Collaborators) (svdb : VersionCertificateDB)
    (x existing : VersionCertificate) (rest : List GenericEntry)
    (st : Batch × List VersionCertificate) (b : Bytes)
    (hget : VersionCertificateDB.Get c svdb x.address = .ok existing)
    (hlt : existing.Version < x.Version) (henc : encodeVersionCertificate c x = .ok b) :
    Upsert.loop c svdb (.versionCertificate x :: rest) st
      = Upsert.loop c svdb rest
          (st.1 ++ [BatchOp.Put (c.addressKey x.address) b], st.2 ++ [x]) := by
  simp [Upsert.loop, GenericDB.upsertEntries, Upsert.getExistingEntry, Upsert.onNewEntry,
    Upsert.onUpdatedEntry, versionCertificateEntryFromGenericEntry, hget, henc, Nat.not_le.mpr hlt]

theorem Upsert.loop_cons_stale (c : Collaborators) (svdb : VersionCertificateDB)
    (x existing : VersionCertificate) (rest : List GenericEntry)
    (st : Batch × List VersionCertificate)
    (hget : VersionCertificateDB.Get c svdb x.address = .ok existing)
    (hle : x.Version ≤ existing.Version) :
    Upsert.loop c svdb (.versionCertificate x :: rest) st = Upsert.loop c svdb rest st := by
  simp [Upsert.loop, GenericDB.upsertEntries, Upsert.getExistingEntry, Upsert.onUpdatedEntry,
    versionCertificateEntryFromGenericEntry, hget, hle]

theorem Upsert.loop_cons_lookupError (c : Collaborators) (svdb : VersionCertificateDB)
    (x : VersionCertificate) (rest : List GenericEntry) (st : Batch × List VersionCertificate)
    (err : Error) (hget : VersionCertificateDB.Get c svdb x.address = .error err)
    (hne : err ≠ .ErrNotFound) :
    Upsert.loop c svdb (.versionCertificate x :: rest) st = .error err := by
  cases err with
  | ErrNotFound => exact absurd rfl hne
  | errIncorrectEntryType =>
    simp [Upsert.loop, GenericDB.upsertEntries, Upsert.getExistingEntry,
      versionCertificateEntryFromGenericEntry, hget]
  | codec e =>
    simp [Upsert.loop, GenericDB.upsertEntries, Upsert.getExistingEntry,
      versionCertificateEntryFromGenericEntry, hget]
  | engine code =>
    simp [Upsert.loop, GenericDB.upsertEntries, Upsert.getExistingEntry,
      versionCertificateEntryFromGenericEntry, hget]

theorem Upsert.loop_cons_encodeError (c : Collaborators) (svdb : VersionCertificateDB)
    (x : VersionCertificate) (rest : List GenericEntry) (st : Batch × List VersionCertificate)
    (err : Error) (hacc : accepts c svdb x = true)
    (henc : encodeVersionCertificate c x = .error err) :
    Upsert.loop c svdb (.versionCertificate x :: rest) st = .error err := by
  unfold accepts at hacc
  split at hacc
  · next hget =>
    simp [Upsert.loop, GenericDB.upsertEntries, Upsert.getExistingEntry, Upsert.onNewEntry,
      versionCertificateEntryFromGenericEntry, hget, henc]
  · exact absurd hacc (by simp)
  · next existing hget =>
    have hlt : existing.Version < x.Version := by simpa using hacc
    simp [Upsert.loop, GenericDB.upsertEntries, Upsert.getExistingEntry, Upsert.onNewEntry,
      Upsert.onUpdatedEntry, versionCertificateEntryFromGenericEntry, hget, henc,
      Nat.not_le.mpr hlt]

theorem VersionCertificateDB.Upsert_eq (c : Collaborators) (svdb : VersionCertificateDB)
    (savEntries : List VersionCertificate) :
    VersionCertificateDB.Upsert c svdb savEntries =
      match Upsert.loop c svdb (savEntries.map GenericEntry.versionCertificate) ([], []) with
      | .error err => (svdb, .error err)
      | .ok (batch, newEntries) =>
        match svdb.writeFault with
        | some code => (svdb, .error (.engine code))
        | none => ({ svdb with db := Batch.apply svdb.db batch }, .ok newEntries) := by
  unfold VersionCertificateDB.Upsert GenericDB.Upsert Upsert.loop
  cases h : GenericDB.upsertEntries (Upsert.getExistingEntry c svdb) (Upsert.onUpdatedEntry c)
      (Upsert.onNewEntry c) (savEntries.map GenericEntry.versionCertificate) ([], []) with
  | error err => rfl
  | ok st =>
    obtain ⟨batch, newEntries⟩ := st
    cases hw : svdb.writeFault with
    | some code => simp [GenericDB.Write, hw]
    | none => simp [GenericDB.Write, hw]

theorem VersionCertificateDB.Get_eq (c : Collaborators) (svdb : VersionCertificateDB)
    (hg : svdb.getFault = none) (address : Address) :
    VersionCertificateDB.Get c svdb address =
      match svdb.db.get (c.addressKey address) with
      | none => .error .ErrNotFound
      | some value => decodeVersionCertificate c value := by
  unfold VersionCertificateDB.Get GenericDB.Get
  rw [hg]
  cases svdb.db.get (c.addressKey address) <;> rfl

theorem VersionCertificateDB.getFault_of_notFound {c : Collaborators}
    {svdb : VersionCertificateDB} {address : Address}
    (h : VersionCertificateDB.Get c svdb address = .error .ErrNotFound) :
    svdb.getFault = none := by
  cases hf : svdb.getFault with
  | none => rfl
  | some code => simp [VersionCertificateDB.Get, GenericDB.Get, hf] at h

theorem VersionCertificateDB.getFault_of_found {c : Collaborators}
    {svdb : VersionCertificateDB} {address : Address} {vc : VersionCertificate}
    (h : VersionCertificateDB.Get c svdb address = .ok vc) : svdb.getFault = none := by
  cases hf : svdb.getFault with
  | none => rfl
  | some code => simp [VersionCertificateDB.Get, GenericDB.Get, hf] at h

/-- What a single accepted candidate does: it is returned, and it is the record read back. -/
theorem Upsert.single_accepted (c : Collaborators) (hc : c.LawfulCodec)
    (svdb : VersionCertificateDB)
    (hg : svdb.getFault = none) (hw : svdb.writeFault = none) (cert : VersionCertificate)
    (hwf : cert.WellFormed c) (b : Bytes) (henc : encodeVersionCertificate c cert = .ok b)
    (hloop : Upsert.loop c svdb [.versionCertificate cert] ([], [])
      = .ok ([BatchOp.Put (c.addressKey cert.address) b], [cert])) :
    VersionCertificateDB.Upsert c svdb [cert]
        = ({ svdb with db := Store.put (c.addressKey cert.address) b svdb.db }, .ok [cert]) ∧
      VersionCertificateDB.Get c (VersionCertificateDB.Upsert c svdb [cert]).1 cert.address
        = .ok cert := by
  have hup : VersionCertificateDB.Upsert c svdb [cert]
      = ({ svdb with db := Store.put (c.addressKey cert.address) b svdb.db }, .ok [cert]) := by
    rw [VersionCertificateDB.Upsert_eq]
    simp only [List.map_cons, List.map_nil, hloop, hw]
    rfl
  refine ⟨hup, ?_⟩
  simp only [hup]
  have hg2 : ({ svdb with db := Store.put (c.addressKey cert.address) b svdb.db } :
      GenericDB).getFault = none := hg
  rw [VersionCertificateDB.Get_eq c _ hg2]
  simp only [Store.get_put_same]
  exact decode_of_encode hc cert hwf b henc

/-- What a single accepted candidate does to the store, well formed or not: its encoding is put
under the key of its address, and it is returned. -/
theorem Upsert.single_put (c : Collaborators) (svdb : VersionCertificateDB)
    (hw : svdb.writeFault = none) (cert : VersionCertificate) (b : Bytes)
    (hloop : Upsert.loop c svdb [.versionCertificate cert] ([], [])
      = .ok ([BatchOp.Put (c.addressKey cert.address) b], [cert])) :
    VersionCertificateDB.Upsert c svdb [cert]
      = ({ svdb with db := Store.put (c.addressKey cert.address) b svdb.db }, .ok [cert]) := by
  rw [VersionCertificateDB.Upsert_eq]
  simp only [List.map_cons, List.map_nil, hloop, hw]
  rfl

theorem accepts_cases {c : Collaborators} {svdb : VersionCertificateDB}
    {x : VersionCertificate} (hacc : accepts c svdb x = true) :
    VersionCertificateDB.Get c svdb x.address = .error .ErrNotFound ∨
      ∃ existing, VersionCertificateDB.Get c svdb x.address = .ok existing ∧
        existing.Version < x.Version := by
  unfold accepts at hacc
  split at hacc
  · next hget => exact Or.inl hget
  · exact absurd hacc (by simp)
  · next existing hget => exact Or.inr ⟨existing, hget, by simpa using hacc⟩

theorem accepts_of_notFound {c : Collaborators} {svdb : VersionCertificateDB}
    {x : VersionCertificate}
    (hget : VersionCertificateDB.Get c svdb x.address = .error .ErrNotFound) :
    accepts c svdb x = true := by
  simp [accepts, hget]

theorem accepts_of_found {c : Collaborators} {svdb : VersionCertificateDB}
    {x existing : VersionCertificate}
    (hget : VersionCertificateDB.Get c svdb x.address = .ok existing) :
    accepts c svdb x = decide (existing.Version < x.Version) := by
  simp [accepts, hget]

theorem Upsert.loop_cons_accepted (c : Collaborators) (svdb : VersionCertificateDB)
    (x : VersionCertificate) (rest : List GenericEntry) (st : Batch × List VersionCertificate)
    (b : Bytes) (hacc : accepts c svdb x = true) (henc : encodeVersionCertificate c x = .ok b) :
    Upsert.loop c svdb (.versionCertificate x :: rest) st
      = Upsert.loop c svdb rest
          (st.1 ++ [BatchOp.Put (c.addressKey x.address) b], st.2 ++ [x]) := by
  unfold accepts at hacc
  split at hacc
  · next hget => exact Upsert.loop_cons_absent c svdb x rest st b hget henc
  · exact absurd hacc (by simp)
  · next existing hget =>
    exact Upsert.loop_cons_newer c svdb x existing rest st b hget (by simpa using hacc) henc

theorem Upsert.loop_cons_rejected (c : Collaborators) (svdb : VersionCertificateDB)
    (x : VersionCertificate) (rest : List GenericEntry) (st : Batch × List VersionCertificate)
    (hacc : accepts c svdb x = false) :
    (∃ err, Upsert.loop c svdb (.versionCertificate x :: rest) st = .error err) ∨
      ((∃ existing, VersionCertificateDB.Get c svdb x.address = .ok existing ∧
          x.Version ≤ existing.Version) ∧
        Upsert.loop c svdb (.versionCertificate x :: rest) st = Upsert.loop c svdb rest st) := by
  unfold accepts at hacc
  split at hacc
  · exact absurd hacc (by simp)
  · next err hne hget =>
    refine Or.inl ⟨err, Upsert.loop_cons_lookupError c svdb x rest st err hget ?_⟩
    intro h
    exact hne h
  · next existing hget =>
    have hle : x.Version ≤ existing.Version := by simpa using hacc
    exact Or.inr
      ⟨⟨existing, hget, hle⟩, Upsert.loop_cons_stale c svdb x existing rest st hget hle⟩

/-- The result of a loop that succeeds: the accepted candidates, in input order, are appended to
the returned list and their puts to the batch. -/
theorem Upsert.loop_ok (c : Collaborators) (svdb : VersionCertificateDB)
    (cs : List VersionCertificate) :
    ∀ (st st2 : Batch × List VersionCertificate),
      Upsert.loop c svdb (cs.map GenericEntry.versionCertificate) st = .ok st2 →
      st2 = (st.1 ++ Upsert.stagedPuts c (cs.filter (accepts c svdb)),
              st.2 ++ cs.filter (accepts c svdb)) ∧
        ∀ x ∈ cs.filter (accepts c svdb), ∃ b, encodeVersionCertificate c x = .ok b := by
  induction cs with
  | nil =>
    intro st st2 h
    simp only [List.map_nil, Upsert.loop_nil] at h
    simp [Upsert.stagedPuts, ← Except.ok.inj h]
  | cons x rest ih =>
    intro st st2 h
    rw [List.map_cons] at h
    by_cases hacc : accepts c svdb x = true
    · cases henc : encodeVersionCertificate c x with
      | error err =>
        rw [Upsert.loop_cons_encodeError c svdb x _ st err hacc henc] at h
        exact absurd h (by simp)
      | ok b =>
        rw [Upsert.loop_cons_accepted c svdb x _ st b hacc henc] at h
        obtain ⟨h1, h2⟩ := ih _ _ h
        refine ⟨?_, ?_⟩
        · simp [h1, List.filter_cons, hacc, Upsert.stagedPuts, henc]
        · intro y hy
          simp only [List.filter_cons, hacc, if_true, List.mem_cons] at hy
          rcases hy with rfl | hy
          · exact ⟨b, henc⟩
          · exact h2 y hy
    · have hrej : accepts c svdb x = false := by simpa using hacc
      rcases Upsert.loop_cons_rejected c svdb x (rest.map GenericEntry.versionCertificate) st hrej
        with ⟨err, herr⟩ | ⟨-, hstep⟩
      · rw [herr] at h
        exact absurd h (by simp)
      · rw [hstep] at h
        obtain ⟨h1, h2⟩ := ih _ _ h
        refine ⟨?_, ?_⟩
        · simp [h1, List.filter_cons, hrej]
        · intro y hy
          simp only [List.filter_cons, hrej] at hy
          exact h2 y (by simpa using hy)

/-- The loop succeeds when every accepted candidate encodes and every lookup either finds no
record or finds one that decodes: candidates that are not accepted are passed over. -/
theorem Upsert.loop_total (c : Collaborators) (hc : c.LawfulCodec) (svdb : VersionCertificateDB)
    (cs : List VersionCertificate) :
    ∀ (st : Batch × List VersionCertificate),
      (∀ x ∈ cs, VersionCertificateDB.Get c svdb x.address = .error .ErrNotFound ∨
        ∃ existing, VersionCertificateDB.Get c svdb x.address = .ok existing) →
      Upsert.loop c svdb (cs.map GenericEntry.versionCertificate) st
        = .ok (st.1 ++ Upsert.stagedPuts c (cs.filter (accepts c svdb)),
            st.2 ++ cs.filter (accepts c svdb)) := by
  induction cs with
  | nil => intro st _; simp [Upsert.loop_nil, Upsert.stagedPuts]
  | cons x rest ih =>
    intro st hread
    have hrest := fun y hy => hread y (List.mem_cons_of_mem x hy)
    rw [List.map_cons]
    by_cases hacc : accepts c svdb x = true
    · obtain ⟨b, henc⟩ := encodeVersionCertificate_total hc x
      rw [Upsert.loop_cons_accepted c svdb x _ st b hacc henc, ih _ hrest]
      simp [List.filter_cons, hacc, Upsert.stagedPuts, henc]
    · have hrej : accepts c svdb x = false := by simpa using hacc
      rcases hread x (List.mem_cons_self _ _) with hget | ⟨existing, hget⟩
      · exact absurd (accepts_of_notFound hget) hacc
      · have hle : x.Version ≤ existing.Version := by
          rw [accepts_of_found hget] at hrej
          simpa using hrej
        rw [Upsert.loop_cons_stale c svdb x existing _ st hget hle, ih _ hrest]
        simp [List.filter_cons, hrej]

/-- The outcome of an `Upsert` that returns without error. -/
theorem VersionCertificateDB.Upsert_ok (c : Collaborators) (svdb : VersionCertificateDB)
    (cs acc : List VersionCertificate)
    (h : (VersionCertificateDB.Upsert c svdb cs).2 = .ok acc) :
    svdb.writeFault = none ∧
      VersionCertificateDB.Upsert c svdb cs
        = ({ svdb with
              db := Batch.apply svdb.db (Upsert.stagedPuts c (cs.filter (accepts c svdb))) },
            .ok (cs.filter (accepts c svdb))) ∧
      ∀ x ∈ cs.filter (accepts c svdb), ∃ b, encodeVersionCertificate c x = .ok b := by
  rw [VersionCertificateDB.Upsert_eq] at h ⊢
  cases hloop : Upsert.loop c svdb (cs.map GenericEntry.versionCertificate) ([], []) with
  | error err => simp [hloop] at h
  | ok st =>
    obtain ⟨h1, h2⟩ := Upsert.loop_ok c svdb cs _ _ hloop
    cases hw : svdb.writeFault with
    | some code => simp [hloop, hw] at h
    | none =>
      refine ⟨rfl, ?_, h2⟩
      simp [h1]

/-- Two candidates for one address that the database holds no record for: both are accepted, and
the second is the record read back. -/
theorem Upsert.pair_absent (c : Collaborators) (hc : c.LawfulCodec) (svdb : VersionCertificateDB)
    (hw : svdb.writeFault = none) (x y : VersionCertificate) (hxy : x.address = y.address)
    (hwf : y.WellFormed c)
    (hget : VersionCertificateDB.Get c svdb y.address = .error .ErrNotFound) :
    (VersionCertificateDB.Upsert c svdb [x, y]).2 = .ok [x, y] ∧
      VersionCertificateDB.Get c (VersionCertificateDB.Upsert c svdb [x, y]).1 y.address
        = .ok y := by
  obtain ⟨bx, hbx⟩ := encodeVersionCertificate_total hc x
  obtain ⟨b, hb⟩ := encodeVersionCertificate_total hc y
  have hg := VersionCertificateDB.getFault_of_notFound hget
  have hup : VersionCertificateDB.Upsert c svdb [x, y]
      = ({ svdb with
            db := Store.put (c.addressKey y.address) b
              (Store.put (c.addressKey y.address) bx svdb.db) }, .ok [x, y]) := by
    rw [VersionCertificateDB.Upsert_eq]
    simp only [List.map_cons, List.map_nil]
    rw [Upsert.loop_cons_absent c svdb x _ _ bx (hxy ▸ hget) hbx,
      Upsert.loop_cons_absent c svdb y _ _ b hget hb, Upsert.loop_nil]
    simp only [hw, hxy]
    rfl
  refine ⟨by rw [hup], ?_⟩
  simp only [hup]
  have hg2 : ({ svdb with
      db := Store.put (c.addressKey y.address) b
        (Store.put (c.addressKey y.address) bx svdb.db) } : GenericDB).getFault = none := hg
  rw [VersionCertificateDB.Get_eq c _ hg2]
  simp only [Store.get_put_same]
  exact decode_of_encode hc y hwf b hb

theorem VersionCertificateDB.getFault_of_accepts {c : Collaborators}
    {svdb : VersionCertificateDB} {x : VersionCertificate} (hacc : accepts c svdb x = true) :
    svdb.getFault = none := by
  rcases accepts_cases hacc with hget | ⟨existing, hget, -⟩
  · exact VersionCertificateDB.getFault_of_notFound hget
  · exact VersionCertificateDB.getFault_of_found hget

/-- A single candidate whose version is not above the stored one: nothing changes. -/
theorem Upsert.single_stale (c : Collaborators) (svdb : VersionCertificateDB)
    (hw : svdb.writeFault = none) (cert existing : VersionCertificate)
    (hget : VersionCertificateDB.Get c svdb cert.address = .ok existing)
    (hle : cert.Version ≤ existing.Version) :
    VersionCertificateDB.Upsert c svdb [cert] = (svdb, .ok []) := by
  rw [VersionCertificateDB.Upsert_eq]
  simp only [List.map_cons, List.map_nil,
    Upsert.loop_cons_stale c svdb cert existing [] ([], []) hget hle, Upsert.loop_nil]
  obtain ⟨db, gf, wf, itf⟩ := svdb
  simp only at hw
  subst hw
  rfl

/-- An `Upsert` of a single candidate that returns without error ran on a database whose commit
succeeds and whose record for the address, if any, decodes. -/
theorem Upsert.single_ok_inv (c : Collaborators) (svdb : VersionCertificateDB)
    (cert : VersionCertificate) (acc : List VersionCertificate)
    (h : (VersionCertificateDB.Upsert c svdb [cert]).2 = .ok acc) :
    svdb.writeFault = none ∧
      (VersionCertificateDB.Get c svdb cert.address = .error .ErrNotFound ∨
        ∃ existing, VersionCertificateDB.Get c svdb cert.address = .ok existing) := by
  refine ⟨(VersionCertificateDB.Upsert_ok c svdb [cert] acc h).1, ?_⟩
  cases hget : VersionCertificateDB.Get c svdb cert.address with
  | ok existing => exact Or.inr ⟨existing, rfl⟩
  | error err =>
    by_cases hne : err = .ErrNotFound
    · exact Or.inl (by rw [hne])
    · rw [VersionCertificateDB.Upsert_eq] at h
      simp only [List.map_cons, List.map_nil,
        Upsert.loop_cons_lookupError c svdb cert [] ([], []) err hget hne] at h
      exact absurd h (by simp)

/-- A single candidate whose lookup fails leaves the database as it was. -/
theorem Upsert.unchanged_of_lookupError (c : Collaborators) (svdb : VersionCertificateDB)
    (cert : VersionCertificate) (err : Error)
    (hget : VersionCertificateDB.Get c svdb cert.address = .error err)
    (hne : err ≠ .ErrNotFound) :
    (VersionCertificateDB.Upsert c svdb [cert]).1 = svdb := by
  rw [VersionCertificateDB.Upsert_eq]
  simp only [List.map_cons, List.map_nil,
    Upsert.loop_cons_lookupError c svdb cert [] ([], []) err hget hne]

/-- Committing the puts of well-formed candidates, each of a version above `v` when it is for the
address `a`, keeps under the key of `a` a value that decodes to a record of version at least
`v`. -/
theorem Upsert.stagedPuts_keeps_floor (c : Collaborators) (hk : c.LawfulKeys)
    (hc : c.LawfulCodec) (a : Address)
    (v : Nat) (xs : List VersionCertificate) :
    ∀ store : Store,
      (∀ x ∈ xs, x.WellFormed c ∧ (x.address = a → v < x.Version)) →
      (∃ b r, store.get (c.addressKey a) = some b ∧ decodeVersionCertificate c b = .ok r ∧
        v ≤ r.Version) →
      ∃ b r, (Batch.apply store (Upsert.stagedPuts c xs)).get (c.addressKey a) = some b ∧
        decodeVersionCertificate c b = .ok r ∧ v ≤ r.Version := by
  induction xs with
  | nil =>
    intro store _ h
    simpa [Upsert.stagedPuts, Batch.apply] using h
  | cons x rest ih =>
    intro store hxs h
    obtain ⟨bx, hbx⟩ := encodeVersionCertificate_total hc x
    have hx := hxs x (List.mem_cons_self _ _)
    have hrest : ∀ y ∈ rest, y.WellFormed c ∧ (y.address = a → v < y.Version) :=
      fun y hy => hxs y (List.mem_cons_of_mem _ hy)
    have hstep : Batch.apply store (Upsert.stagedPuts c (x :: rest))
        = Batch.apply (Store.put (c.addressKey x.address) bx store)
            (Upsert.stagedPuts c rest) := by
      simp [Upsert.stagedPuts, hbx, Batch.apply, BatchOp.apply]
    rw [hstep]
    apply ih _ hrest
    by_cases hax : x.address = a
    · subst hax
      exact ⟨bx, x, Store.get_put_same _ _ _, decode_of_encode hc x hx.1 bx hbx,
        Nat.le_of_lt (hx.2 rfl)⟩
    · have hkey : c.addressKey a ≠ c.addressKey x.address :=
        fun heq => hax (hk.addressKey_injective heq).symm
      rw [Store.get_put_other _ _ _ _ hkey]
      exact h

/-- Committing the puts of a list of candidates that all encode: under the key of an address the
store then holds the encoding of the last candidate of the list for that address, and what it
held before when the list has no candidate for that address. -/
theorem Upsert.stagedPuts_last (c : Collaborators) (hk : c.LawfulKeys) (a : Address)
    (xs : List VersionCertificate) :
    ∀ store : Store,
      (∀ x ∈ xs, ∃ b, encodeVersionCertificate c x = .ok b) →
      (∀ x, (xs.filter (fun y => decide (y.address = a))).getLast? = some x →
        ∃ b, encodeVersionCertificate c x = .ok b ∧
          (Batch.apply store (Upsert.stagedPuts c xs)).get (c.addressKey a) = some b) ∧
      (xs.filter (fun y => decide (y.address = a)) = [] →
        (Batch.apply store (Upsert.stagedPuts c xs)).get (c.addressKey a)
          = store.get (c.addressKey a)) := by
  induction xs with
  | nil =>
    intro store _
    refine ⟨fun x hx => ?_, fun _ => ?_⟩
    · simp at hx
    · simp [Upsert.stagedPuts, Batch.apply]
  | cons x rest ih =>
    intro store hxs
    obtain ⟨bx, hbx⟩ := hxs x (List.mem_cons_self _ _)
    have hrest : ∀ y ∈ rest, ∃ b, encodeVersionCertificate c y = .ok b :=
      fun y hy => hxs y (List.mem_cons_of_mem _ hy)
    have hstep : Batch.apply store (Upsert.stagedPuts c (x :: rest))
        = Batch.apply (Store.put (c.addressKey x.address) bx store)
            (Upsert.stagedPuts c rest) := by
      simp [Upsert.stagedPuts, hbx, Batch.apply, BatchOp.apply]
    rw [hstep]
    obtain ⟨ih1, ih2⟩ := ih (Store.put (c.addressKey x.address) bx store) hrest
    by_cases hax : x.address = a
    · have hfilter : (x :: rest).filter (fun y => decide (y.address = a))
          = x :: rest.filter (fun y => decide (y.address = a)) := by
        simp [List.filter_cons, hax]
      rw [hfilter]
      refine ⟨fun y hy => ?_, fun hnil => by simp at hnil⟩
      cases hF : rest.filter (fun y => decide (y.address = a)) with
      | nil =>
        rw [hF] at hy
        have hyx : x = y := by simpa using hy
        subst hyx
        refine ⟨bx, hbx, ?_⟩
        rw [ih2 hF, ← hax]
        exact Store.get_put_same _ _ _
      | cons z zs =>
        rw [hF, List.getLast?_cons_cons] at hy
        rw [← hF] at hy
        exact ih1 y hy
    · have hfilter : (x :: rest).filter (fun y => decide (y.address = a))
          = rest.filter (fun y => decide (y.address = a)) := by
        simp [List.filter_cons, hax]
      rw [hfilter]
      have hkey : c.addressKey a ≠ c.addressKey x.address :=
        fun heq => hax (hk.addressKey_injective heq).symm
      refine ⟨ih1, fun hnil => ?_⟩
      rw [ih2 hnil]
      exact Store.get_put_other _ _ _ _ hkey

/-! ## Lemmas on `Prune` -/

theorem Store.mem_of_get {s : Store} {key value : Bytes} (h : s.get key = some value) :
    (key, value) ∈ s := by
  induction s with
  | nil => simp [Store.get] at h
  | cons kv rest ih =>
    obtain ⟨k, v⟩ := kv
    by_cases hk : k = key
    · subst hk
      simp only [Store.get, if_true] at h
      rw [Option.some.inj h]
      exact List.mem_cons_self _ _
    · simp only [Store.get, hk, if_false] at h
      exact List.mem_cons_of_mem _ (ih h)

theorem Batch.get_apply_deletes (keys : List Bytes) :
    ∀ (s : Store) (key : Bytes),
      (Batch.apply s (keys.map BatchOp.Delete)).get key
        = if key ∈ keys then none else s.get key := by
  induction keys with
  | nil => intro s key; simp [Batch.apply]
  | cons k rest ih =>
    intro s key
    have hstep : Batch.apply s ((k :: rest).map BatchOp.Delete)
        = Batch.apply (Store.delete k s) (rest.map BatchOp.Delete) := by
      simp [Batch.apply, BatchOp.apply]
    rw [hstep, ih]
    by_cases hr : key ∈ rest
    · simp [hr]
    · by_cases hk : key = k
      · subst hk
        simp [hr, Store.get_delete_same]
      · simp [hr, hk, Store.get_delete_other _ _ _ hk]

theorem Prune.mem_deletedKeys {c : Collaborators} {addressesToKeep : Address → Bool}
    {visited : List (Bytes × Bytes)} {key : Bytes} :
    key ∈ Prune.deletedKeys c addressesToKeep visited ↔
      ∃ kv ∈ visited, addressesToKeep (c.BytesToAddress kv.1) = false ∧
        c.addressKey (c.BytesToAddress kv.1) = key := by
  unfold Prune.deletedKeys
  rw [List.mem_filterMap]
  constructor
  · rintro ⟨kv, hkv, h⟩
    by_cases hk : addressesToKeep (c.BytesToAddress kv.1) = true
    · simp [hk] at h
    · simp only [hk] at h
      exact ⟨kv, hkv, by simpa using hk, Option.some.inj h⟩
  · rintro ⟨kv, hkv, hk, h⟩
    exact ⟨kv, hkv, by simp [hk, h]⟩

/-- The visits of `Prune` over entries that all decode: the deletions are staged in order. -/
theorem Prune.visit_ok (c : Collaborators) (addressesToKeep : Address → Bool)
    (visited : List (Bytes × Bytes)) :
    ∀ batch : Batch, visited.all (fun kv => decodes c kv.2) = true →
      GenericDB.visit (iterate.onDBEntry c (Prune.onEntry c addressesToKeep)) visited batch
        = (batch ++ (Prune.deletedKeys c addressesToKeep visited).map BatchOp.Delete,
            .ok ()) := by
  induction visited with
  | nil => intro batch _; simp [GenericDB.visit, Prune.deletedKeys]
  | cons kv rest ih =>
    intro batch hall
    obtain ⟨k, v⟩ := kv
    simp only [List.all_cons, Bool.and_eq_true] at hall
    obtain ⟨hv, hrest⟩ := hall
    cases hdec : decodeVersionCertificate c v with
    | error err => simp [decodes, hdec] at hv
    | ok entry =>
      by_cases hk : addressesToKeep (c.BytesToAddress k) = true
      · simp [GenericDB.visit, iterate.onDBEntry, hdec, Prune.onEntry, hk, ih batch hrest,
          Prune.deletedKeys]
      · simp [GenericDB.visit, iterate.onDBEntry, hdec, Prune.onEntry, hk, ih _ hrest,
          Prune.deletedKeys]

/-- The visits of `Prune` over entries one of which does not decode: the error of the first such
entry is returned. -/
theorem Prune.visit_error (c : Collaborators) (addressesToKeep : Address → Bool)
    (visited : List (Bytes × Bytes)) :
    ∀ batch : Batch, visited.all (fun kv => decodes c kv.2) = false →
      ∃ kv ∈ visited, ∃ err, decodeVersionCertificate c kv.2 = .error err ∧
        (GenericDB.visit (iterate.onDBEntry c (Prune.onEntry c addressesToKeep)) visited
          batch).2 = .error err := by
  induction visited with
  | nil => intro batch h; simp at h
  | cons kv rest ih =>
    intro batch hall
    obtain ⟨k, v⟩ := kv
    cases hdec : decodeVersionCertificate c v with
    | error err =>
      exact ⟨(k, v), List.mem_cons_self _ _, err, hdec,
        by simp [GenericDB.visit, iterate.onDBEntry, hdec]⟩
    | ok entry =>
      have hrest : rest.all (fun kv => decodes c kv.2) = false := by
        simpa [List.all_cons, decodes, hdec] using hall
      by_cases hk : addressesToKeep (c.BytesToAddress k) = true
      · obtain ⟨kv2, hmem, err, herr, hvisit⟩ := ih batch hrest
        exact ⟨kv2, List.mem_cons_of_mem _ hmem, err, herr,
          by simp [GenericDB.visit, iterate.onDBEntry, hdec, Prune.onEntry, hk, hvisit]⟩
      · obtain ⟨kv2, hmem, err, herr, hvisit⟩ :=
          ih (batch ++ [BatchOp.Delete (c.addressKey (c.BytesToAddress k))]) hrest
        exact ⟨kv2, List.mem_cons_of_mem _ hmem, err, herr,
          by simp [GenericDB.visit, iterate.onDBEntry, hdec, Prune.onEntry, hk, hvisit]⟩

/-! ## The specified properties -/

/-- C1, as stated, fails for a certificate whose public key does not unmarshal: on the empty
database `Upsert` of such a certificate for `A` returns it as accepted and stores its encoding,
and `Get` of `A` then returns the error of the unmarshalling, not the certificate. -/
theorem upsert_single_decision_counterexample :
    VersionCertificateDB.Get sampleCollaborators emptyDB (sampleBadCert addrA 5).address
      = .error .ErrNotFound ∧
    (VersionCertificateDB.Upsert sampleCollaborators emptyDB [sampleBadCert addrA 5]).2
      = .ok [sampleBadCert addrA 5] ∧
    VersionCertificateDB.Get sampleCollaborators
        (VersionCertificateDB.Upsert sampleCollaborators emptyDB [sampleBadCert addrA 5]).1
        (sampleBadCert addrA 5).address
      = .error (.codec .errInvalidPubkey) ∧
    VersionCertificateDB.Get sampleCollaborators
        (VersionCertificateDB.Upsert sampleCollaborators emptyDB [sampleBadCert addrA 5]).1
        (sampleBadCert addrA 5).address
      ≠ .ok (sampleBadCert addrA 5) := by
  refine ⟨rfl, rfl, rfl, ?_⟩
  have h : VersionCertificateDB.Get sampleCollaborators
      (VersionCertificateDB.Upsert sampleCollaborators emptyDB [sampleBadCert addrA 5]).1
      (sampleBadCert addrA 5).address = .error (.codec .errInvalidPubkey) := rfl
  rw [h]
  intro hok
  cases hok

/-- C1, amended: the decision rule on a single candidate.  On a database whose commit succeeds
and for every certificate: (i) when the database holds no record for the address of the
candidate, or one of a strictly lower version, `Upsert` of the one candidate returns it as the
accepted list and the store then holds its encoding under the key of its address, and `Get` of
its address then returns it when the certificate is well formed; (ii) when the database holds a
record of a greater or equal version, `Upsert` returns the empty list without error and the
database is unchanged. -/
theorem upsert_single_decision (c : Collaborators) (hc : c.LawfulCodec)
    (svdb : VersionCertificateDB)
    (hw : svdb.writeFault = none) (cert : VersionCertificate) :
    ((VersionCertificateDB.Get c svdb cert.address = .error .ErrNotFound ∨
        ∃ existing, VersionCertificateDB.Get c svdb cert.address = .ok existing ∧
          existing.Version < cert.Version) →
      (VersionCertificateDB.Upsert c svdb [cert]).2 = .ok [cert] ∧
        (∃ b, encodeVersionCertificate c cert = .ok b ∧
          (VersionCertificateDB.Upsert c svdb [cert]).1.db.get (c.addressKey cert.address)
            = some b) ∧
        (cert.WellFormed c →
          VersionCertificateDB.Get c (VersionCertificateDB.Upsert c svdb [cert]).1 cert.address
            = .ok cert)) ∧
    ((∃ existing, VersionCertificateDB.Get c svdb cert.address = .ok existing ∧
          cert.Version ≤ existing.Version) →
      VersionCertificateDB.Upsert c svdb [cert] = (svdb, .ok [])) := by
  obtain ⟨b, henc⟩ := encodeVersionCertificate_total hc cert
  have haccepted : ∀ (_ : svdb.getFault = none)
      (_ : Upsert.loop c svdb [.versionCertificate cert] ([], [])
        = .ok ([BatchOp.Put (c.addressKey cert.address) b], [cert])),
      (VersionCertificateDB.Upsert c svdb [cert]).2 = .ok [cert] ∧
        (∃ b, encodeVersionCertificate c cert = .ok b ∧
          (VersionCertificateDB.Upsert c svdb [cert]).1.db.get (c.addressKey cert.address)
            = some b) ∧
        (cert.WellFormed c →
          VersionCertificateDB.Get c (VersionCertificateDB.Upsert c svdb [cert]).1 cert.address
            = .ok cert) := by
    intro hg hloop
    have hup := Upsert.single_put c svdb hw cert b hloop
    refine ⟨by rw [hup], ⟨b, henc, ?_⟩, fun hwf => ?_⟩
    · rw [hup]
      exact Store.get_put_same _ _ _
    · exact (Upsert.single_accepted c hc svdb hg hw cert hwf b henc hloop).2
  refine ⟨?_, ?_⟩
  · rintro (hget | ⟨existing, hget, hlt⟩)
    · exact haccepted (VersionCertificateDB.getFault_of_notFound hget)
        (by rw [Upsert.loop_cons_absent c svdb cert [] ([], []) b hget henc]; rfl)
    · exact haccepted (VersionCertificateDB.getFault_of_found hget)
        (by rw [Upsert.loop_cons_newer c svdb cert existing [] ([], []) b hget hlt henc]; rfl)
  · rintro ⟨existing, hget, hle⟩
    exact Upsert.single_stale c svdb hw cert existing hget hle

/-- The example of C1, amended: over the stored record `A@3`, `Upsert([A@5])` returns `[A@5]` and
leaves `A@5`, and `Upsert([A@2])` returns nothing and leaves the database, hence `A@3`, as it
was; on the empty database the certificate of `A` whose key does not unmarshal is returned as
accepted and its encoding is stored under the key of `A`. -/
theorem upsert_single_decision_witness :
    ((VersionCertificateDB.Upsert sampleCollaborators (sampleDB [sampleCert addrA 3])
          [sampleCert addrA 5]).2 = .ok [sampleCert addrA 5] ∧
      VersionCertificateDB.Get sampleCollaborators
          (VersionCertificateDB.Upsert sampleCollaborators (sampleDB [sampleCert addrA 3])
            [sampleCert addrA 5]).1 (sampleCert addrA 5).address = .ok (sampleCert addrA 5)) ∧
    VersionCertificateDB.Upsert sampleCollaborators (sampleDB [sampleCert addrA 3])
        [sampleCert addrA 2] = (sampleDB [sampleCert addrA 3], .ok []) ∧
    ((VersionCertificateDB.Upsert sampleCollaborators emptyDB [sampleBadCert addrA 5]).2
        = .ok [sampleBadCert addrA 5] ∧
      ∃ b, encodeVersionCertificate sampleCollaborators (sampleBadCert addrA 5) = .ok b ∧
        (VersionCertificateDB.Upsert sampleCollaborators emptyDB [sampleBadCert addrA 5]).1.db.get
          (sampleCollaborators.addressKey (sampleBadCert addrA 5).address) = some b) :=
  ⟨⟨((upsert_single_decision sampleCollaborators sampleCollaborators_lawfulCodec
        (sampleDB [sampleCert addrA 3]) rfl (sampleCert addrA 5)).1
        (Or.inr ⟨sampleCert addrA 3, rfl, by decide⟩)).1,
      ((upsert_single_decision sampleCollaborators sampleCollaborators_lawfulCodec
        (sampleDB [sampleCert addrA 3]) rfl (sampleCert addrA 5)).1
        (Or.inr ⟨sampleCert addrA 3, rfl, by decide⟩)).2.2 (sampleCert_wellFormed _ _)⟩,
    (upsert_single_decision sampleCollaborators sampleCollaborators_lawfulCodec
      (sampleDB [sampleCert addrA 3]) rfl (sampleCert addrA 2)).2
      ⟨sampleCert addrA 3, rfl, by decide⟩,
    ((upsert_single_decision sampleCollaborators sampleCollaborators_lawfulCodec
        emptyDB rfl (sampleBadCert addrA 5)).1 (Or.inl rfl)).1,
    ((upsert_single_decision sampleCollaborators sampleCollaborators_lawfulCodec
        emptyDB rfl (sampleBadCert addrA 5)).1 (Or.inl rfl)).2.1⟩

/-- C2: when `Upsert` returns without error, the returned list is exactly the sublist of the
candidates, in input order, for which the database before the call holds no record for the address
or holds a record of a strictly lower version; the other candidates are left out.  They cause no
error: when the commit succeeds and every lookup finds no record or one that decodes, `Upsert`
returns that sublist. -/
theorem upsert_accepted_eq_filter (c : Collaborators) (svdb : VersionCertificateDB)
    (cs : List VersionCertificate) :
    (∀ acc, (VersionCertificateDB.Upsert c svdb cs).2 = .ok acc →
      acc = cs.filter (accepts c svdb)) ∧
    (c.LawfulCodec → svdb.writeFault = none →
      (∀ x ∈ cs, VersionCertificateDB.Get c svdb x.address = .error .ErrNotFound ∨
        ∃ existing, VersionCertificateDB.Get c svdb x.address = .ok existing) →
      (VersionCertificateDB.Upsert c svdb cs).2 = .ok (cs.filter (accepts c svdb))) := by
  refine ⟨fun acc h => ?_, fun hc hw hread => ?_⟩
  · obtain ⟨-, hup, -⟩ := VersionCertificateDB.Upsert_ok c svdb cs acc h
    rw [hup] at h
    exact (Except.ok.inj h).symm
  · rw [VersionCertificateDB.Upsert_eq, Upsert.loop_total c hc svdb cs _ hread]
    simp only [hw, List.nil_append]

/-- The example of C2: over the stored record `A@3`, the batch `[A@2, B@1, A@5]` returns
`[B@1, A@5]`. -/
theorem upsert_accepted_eq_filter_witness :
    [sampleCert addrB 1, sampleCert addrA 5]
      = [sampleCert addrA 2, sampleCert addrB 1, sampleCert addrA 5].filter
          (accepts sampleCollaborators (sampleDB [sampleCert addrA 3])) :=
  (upsert_accepted_eq_filter sampleCollaborators (sampleDB [sampleCert addrA 3])
    [sampleCert addrA 2, sampleCert addrB 1, sampleCert addrA 5]).1
    [sampleCert addrB 1, sampleCert addrA 5] rfl

/-- C3, as stated, fails: on the empty database the batch `[A@7, A@2]` leaves the record of `A`
at version 2, not at version 7. -/
theorem upsert_batch_order_counterexample :
    VersionCertificateDB.Get sampleCollaborators emptyDB addrA = .error .ErrNotFound ∧
    VersionCertificateDB.GetVersion sampleCollaborators
        (VersionCertificateDB.Upsert sampleCollaborators emptyDB
          [sampleCert addrA 7, sampleCert addrA 2]).1 addrA = .ok 2 ∧
    VersionCertificateDB.GetVersion sampleCollaborators
        (VersionCertificateDB.Upsert sampleCollaborators emptyDB
          [sampleCert addrA 7, sampleCert addrA 2]).1 addrA ≠ .ok 7 := by
  refine ⟨rfl, rfl, ?_⟩
  have h : VersionCertificateDB.GetVersion sampleCollaborators
      (VersionCertificateDB.Upsert sampleCollaborators emptyDB
        [sampleCert addrA 7, sampleCert addrA 2]).1 addrA = .ok 2 := rfl
  rw [h]
  intro h7
  exact absurd (Except.ok.inj h7) (by decide)

/-- C3, amended: within one batch every candidate is judged against the database before the
call.  Starting from a database with no record for the address, a batch of two well-formed
candidates for that address returns both as accepted, and the record stored afterwards is the
candidate that is later in input order, whatever the two versions: `Upsert([A@lo, A@hi])` leaves
`A@hi`, and `Upsert([A@hi, A@lo])` leaves `A@lo`. -/
theorem upsert_batch_last_wins (c : Collaborators) (hc : c.LawfulCodec)
    (svdb : VersionCertificateDB) (hw : svdb.writeFault = none) (x y : VersionCertificate)
    (haddr : x.address = y.address) (hwx : x.WellFormed c) (hwy : y.WellFormed c)
    (hget : VersionCertificateDB.Get c svdb y.address = .error .ErrNotFound) :
    ((VersionCertificateDB.Upsert c svdb [x, y]).2 = .ok [x, y] ∧
      VersionCertificateDB.Get c (VersionCertificateDB.Upsert c svdb [x, y]).1 y.address
        = .ok y) ∧
    ((VersionCertificateDB.Upsert c svdb [y, x]).2 = .ok [y, x] ∧
      VersionCertificateDB.Get c (VersionCertificateDB.Upsert c svdb [y, x]).1 y.address
        = .ok x) := by
  refine ⟨Upsert.pair_absent c hc svdb hw x y haddr hwy hget, ?_⟩
  have h := Upsert.pair_absent c hc svdb hw y x haddr.symm hwx (haddr ▸ hget)
  rw [haddr] at h
  exact h

/-- The example of C3, amended: on the empty database `[A@2, A@7]` leaves `A@7` and `[A@7, A@2]`
leaves `A@2`, both batches being accepted whole. -/
theorem upsert_batch_last_wins_witness :
    ((VersionCertificateDB.Upsert sampleCollaborators emptyDB
          [sampleCert addrA 2, sampleCert addrA 7]).2
        = .ok [sampleCert addrA 2, sampleCert addrA 7] ∧
      VersionCertificateDB.Get sampleCollaborators
          (VersionCertificateDB.Upsert sampleCollaborators emptyDB
            [sampleCert addrA 2, sampleCert addrA 7]).1 (sampleCert addrA 7).address
        = .ok (sampleCert addrA 7)) ∧
    ((VersionCertificateDB.Upsert sampleCollaborators emptyDB
          [sampleCert addrA 7, sampleCert addrA 2]).2
        = .ok [sampleCert addrA 7, sampleCert addrA 2] ∧
      VersionCertificateDB.Get sampleCollaborators
          (VersionCertificateDB.Upsert sampleCollaborators emptyDB
            [sampleCert addrA 7, sampleCert addrA 2]).1 (sampleCert addrA 7).address
        = .ok (sampleCert addrA 2)) :=
  upsert_batch_last_wins sampleCollaborators sampleCollaborators_lawfulCodec emptyDB rfl
    (sampleCert addrA 2) (sampleCert addrA 7) rfl (sampleCert_wellFormed _ _)
    (sampleCert_wellFormed _ _) rfl

/-- C7: `Upsert` is all or nothing.  Whenever it returns an error, whatever the cause (a failed
lookup or decoding of an existing record, a failed encoding, a failed commit), it returns no
accepted candidate and the database is the one before the call. -/
theorem upsert_error_atomic (c : Collaborators) (svdb : VersionCertificateDB)
    (cs : List VersionCertificate) (err : Error)
    (h : (VersionCertificateDB.Upsert c svdb cs).2 = .error err) :
    VersionCertificateDB.Upsert c svdb cs = (svdb, .error err) := by
  rw [VersionCertificateDB.Upsert_eq] at h ⊢
  cases hloop : Upsert.loop c svdb (cs.map GenericEntry.versionCertificate) ([], []) with
  | error err2 =>
    simp only [hloop] at h ⊢
    rw [Except.error.inj h]
  | ok st =>
    cases hw : svdb.writeFault with
    | some code =>
      simp only [hloop, hw] at h ⊢
      rw [Except.error.inj h]
    | none => simp [hloop, hw] at h

/-- The example of C7: over the stored record `A@1`, when the commit of `Upsert([A@2, B@1])`
fails, the error is returned and the database is the one before the call, so that neither `A` nor
`B` changes. -/
theorem upsert_error_atomic_witness :
    VersionCertificateDB.Upsert sampleCollaborators (commitFailingDB [sampleCert addrA 1])
        [sampleCert addrA 2, sampleCert addrB 1]
      = (commitFailingDB [sampleCert addrA 1], .error (.engine 1)) :=
  upsert_error_atomic sampleCollaborators (commitFailingDB [sampleCert addrA 1])
    [sampleCert addrA 2, sampleCert addrB 1] (.engine 1) rfl

/-- C8: the codec round trip.  For every well-formed certificate the encoding succeeds, and
decoding the encoded bytes succeeds and returns the certificate: the same address, public key,
version and signature. -/
theorem decode_encode_roundtrip (c : Collaborators) (hc : c.LawfulCodec) (r : VersionCertificate)
    (hwf : r.WellFormed c) :
    ∃ b, encodeVersionCertificate c r = .ok b ∧
      ∃ r2, decodeVersionCertificate c b = .ok r2 ∧ r2.address = r.address ∧
        r2.pubKey = r.pubKey ∧ r2.Version = r.Version ∧ r2.Signature = r.Signature := by
  obtain ⟨b, hb⟩ := encodeVersionCertificate_total hc r
  exact ⟨b, hb, r, decode_of_encode hc r hwf b hb, rfl, rfl, rfl, rfl⟩

/-- The example of C8: the round trip of the sample certificate `A@5`. -/
theorem decode_encode_roundtrip_witness :
    ∃ b, encodeVersionCertificate sampleCollaborators (sampleCert addrA 5) = .ok b ∧
      ∃ r2, decodeVersionCertificate sampleCollaborators b = .ok r2 ∧
        r2.address = (sampleCert addrA 5).address ∧ r2.pubKey = (sampleCert addrA 5).pubKey ∧
        r2.Version = (sampleCert addrA 5).Version ∧
        r2.Signature = (sampleCert addrA 5).Signature :=
  decode_encode_roundtrip sampleCollaborators sampleCollaborators_lawfulCodec (sampleCert addrA 5)
    (sampleCert_wellFormed _ _)

/-- C5, as stated, fails for a certificate whose public key does not unmarshal: on the empty
database the first `Upsert` of such a certificate returns it as accepted, and the second
`Upsert` of the same certificate returns the error of reading the stored record back, not the
empty list without error. -/
theorem upsert_idempotent_counterexample :
    (VersionCertificateDB.Upsert sampleCollaborators emptyDB [sampleBadCert addrA 5]).2
      = .ok [sampleBadCert addrA 5] ∧
    (VersionCertificateDB.Upsert sampleCollaborators
        (VersionCertificateDB.Upsert sampleCollaborators emptyDB [sampleBadCert addrA 5]).1
        [sampleBadCert addrA 5]).2 = .error (.codec .errInvalidPubkey) ∧
    (VersionCertificateDB.Upsert sampleCollaborators
        (VersionCertificateDB.Upsert sampleCollaborators emptyDB [sampleBadCert addrA 5]).1
        [sampleBadCert addrA 5]).2 ≠ .ok [] := by
  refine ⟨rfl, rfl, ?_⟩
  have h : (VersionCertificateDB.Upsert sampleCollaborators
      (VersionCertificateDB.Upsert sampleCollaborators emptyDB [sampleBadCert addrA 5]).1
      [sampleBadCert addrA 5]).2 = .error (.codec .errInvalidPubkey) := rfl
  rw [h]
  intro hok
  cases hok

/-- C5, amended: idempotence.  For every certificate, after an `Upsert` of the one certificate
that returned without error, a second `Upsert` of the same certificate leaves the database
unchanged and accepts nothing: whenever it returns without error it returns the empty list, and
it does so whenever the certificate is well formed. -/
theorem upsert_idempotent (c : Collaborators) (hc : c.LawfulCodec) (svdb : VersionCertificateDB)
    (cert : VersionCertificate) (acc : List VersionCertificate)
    (h : (VersionCertificateDB.Upsert c svdb [cert]).2 = .ok acc) :
    (VersionCertificateDB.Upsert c (VersionCertificateDB.Upsert c svdb [cert]).1 [cert]).1
      = (VersionCertificateDB.Upsert c svdb [cert]).1 ∧
    (∀ acc2,
      (VersionCertificateDB.Upsert c (VersionCertificateDB.Upsert c svdb [cert]).1 [cert]).2
        = .ok acc2 → acc2 = []) ∧
    (cert.WellFormed c →
      VersionCertificateDB.Upsert c (VersionCertificateDB.Upsert c svdb [cert]).1 [cert]
        = ((VersionCertificateDB.Upsert c svdb [cert]).1, .ok [])) := by
  obtain ⟨hw, hdec⟩ := Upsert.single_ok_inv c svdb cert acc h
  obtain ⟨b, henc⟩ := encodeVersionCertificate_total hc cert
  have hstale : ∀ db1 : VersionCertificateDB,
      VersionCertificateDB.Upsert c db1 [cert] = (db1, .ok []) →
      (VersionCertificateDB.Upsert c db1 [cert]).1 = db1 ∧
      (∀ acc2, (VersionCertificateDB.Upsert c db1 [cert]).2 = .ok acc2 → acc2 = []) ∧
      (cert.WellFormed c → VersionCertificateDB.Upsert c db1 [cert] = (db1, .ok [])) := by
    intro db1 h1
    refine ⟨by rw [h1], fun acc2 h2 => ?_, fun _ => h1⟩
    rw [h1] at h2
    exact (Except.ok.inj h2).symm
  by_cases hacc : accepts c svdb cert = true
  · have hg := VersionCertificateDB.getFault_of_accepts hacc
    have hup := Upsert.single_put c svdb hw cert b
      (by rw [Upsert.loop_cons_accepted c svdb cert [] ([], []) b hacc henc]; rfl)
    have hw2 : (VersionCertificateDB.Upsert c svdb [cert]).1.writeFault = none := by
      rw [hup]; exact hw
    have hget1 : VersionCertificateDB.Get c (VersionCertificateDB.Upsert c svdb [cert]).1
        cert.address = decodeVersionCertificate c b := by
      have hg2 : (VersionCertificateDB.Upsert c svdb [cert]).1.getFault = none := by
        rw [hup]; exact hg
      rw [VersionCertificateDB.Get_eq c _ hg2, hup]
      simp only [Store.get_put_same]
    cases hd : decodeVersionCertificate c b with
    | ok r =>
      have hver : r.Version = cert.Version := by
        obtain ⟨content, hcont, hv, -⟩ := decode_content hd
        rw [decodeBytes_of_encode hc cert b henc] at hcont
        rw [hv, ← Except.ok.inj hcont]
      exact hstale _ (Upsert.single_stale c _ hw2 cert r (hget1.trans hd) (by rw [hver]))
    | error err =>
      have hne := decode_error_ne_notFound hd
      have hgerr := hget1.trans hd
      refine ⟨Upsert.unchanged_of_lookupError c _ cert err hgerr hne, fun acc2 h2 => ?_,
        fun hwf => ?_⟩
      · rw [VersionCertificateDB.Upsert_eq] at h2
        simp only [List.map_cons, List.map_nil,
          Upsert.loop_cons_lookupError c _ cert [] ([], []) err hgerr hne] at h2
        exact absurd h2 (by simp)
      · rw [decode_of_encode hc cert hwf b henc] at hd
        cases hd
  · rcases hdec with hget | ⟨existing, hget⟩
    · exact absurd (accepts_of_notFound hget) hacc
    · have hle : cert.Version ≤ existing.Version := by
        rw [accepts_of_found hget] at hacc
        simpa using hacc
      have hup := Upsert.single_stale c svdb hw cert existing hget hle
      have hfst : (VersionCertificateDB.Upsert c svdb [cert]).1 = svdb := by rw [hup]
      rw [hfst]
      exact hstale svdb hup

/-- The example of C5, amended: `Upsert([A@5])` twice in a row on the empty database; and for the
certificate of `A` whose key does not unmarshal, the second call leaves the database as the
first call left it. -/
theorem upsert_idempotent_witness :
    VersionCertificateDB.Upsert sampleCollaborators
        (VersionCertificateDB.Upsert sampleCollaborators emptyDB [sampleCert addrA 5]).1
        [sampleCert addrA 5]
      = ((VersionCertificateDB.Upsert sampleCollaborators emptyDB [sampleCert addrA 5]).1,
          .ok []) ∧
    (VersionCertificateDB.Upsert sampleCollaborators
        (VersionCertificateDB.Upsert sampleCollaborators emptyDB [sampleBadCert addrA 5]).1
        [sampleBadCert addrA 5]).1
      = (VersionCertificateDB.Upsert sampleCollaborators emptyDB [sampleBadCert addrA 5]).1 :=
  ⟨(upsert_idempotent sampleCollaborators sampleCollaborators_lawfulCodec emptyDB
      (sampleCert addrA 5) [sampleCert addrA 5] rfl).2.2 (sampleCert_wellFormed _ _),
    (upsert_idempotent sampleCollaborators sampleCollaborators_lawfulCodec emptyDB
      (sampleBadCert addrA 5) [sampleBadCert addrA 5] rfl).1⟩

/-- C9: `Prune` keeps exactly the keep-set.  On a database all of whose values decode and whose
engine reports no failure of the iteration or of the commit, `Prune` returns without error;
afterwards the value stored for every address of the keep-set is, byte for byte, the one stored
before (whatever its version, and absent when it was absent), and no value is stored for any
address outside the keep-set. -/
theorem prune_keeps_exactly (c : Collaborators) (hc : c.LawfulKeys)
    (svdb : VersionCertificateDB)
    (addressesToKeep : Address → Bool) (hi : svdb.iterFault = none)
    (hw : svdb.writeFault = none)
    (hall : VersionCertificateDB.allValuesDecode c svdb = true) :
    (VersionCertificateDB.Prune c svdb addressesToKeep).2 = .ok () ∧
      (∀ a, addressesToKeep a = true →
        (VersionCertificateDB.Prune c svdb addressesToKeep).1.db.get (c.addressKey a)
          = svdb.db.get (c.addressKey a)) ∧
      (∀ a, addressesToKeep a = false →
        (VersionCertificateDB.Prune c svdb addressesToKeep).1.db.get (c.addressKey a)
          = none) := by
  have hprune : VersionCertificateDB.Prune c svdb addressesToKeep
      = ({ svdb with
            db := Batch.apply svdb.db
              ((Prune.deletedKeys c addressesToKeep
                (VersionCertificateDB.entries c svdb)).map BatchOp.Delete) }, .ok ()) := by
    have hvisit := Prune.visit_ok c addressesToKeep (VersionCertificateDB.entries c svdb) [] hall
    unfold VersionCertificateDB.entries at hvisit
    simp [VersionCertificateDB.Prune, VersionCertificateDB.iterate, GenericDB.Iterate, hvisit,
      hi, GenericDB.Write, hw, VersionCertificateDB.entries]
  refine ⟨by rw [hprune], ?_, ?_⟩
  · intro a ha
    simp only [hprune, Batch.get_apply_deletes]
    have hnot : c.addressKey a ∉
        Prune.deletedKeys c addressesToKeep (VersionCertificateDB.entries c svdb) := by
      intro hmem
      obtain ⟨kv, -, hk, hkey⟩ := Prune.mem_deletedKeys.mp hmem
      rw [hc.addressKey_injective hkey, ha] at hk
      exact absurd hk (by simp)
    simp [hnot]
  · intro a ha
    simp only [hprune, Batch.get_apply_deletes]
    cases hget : svdb.db.get (c.addressKey a) with
    | none => simp
    | some value =>
      have hmem : c.addressKey a ∈
          Prune.deletedKeys c addressesToKeep (VersionCertificateDB.entries c svdb) := by
        refine Prune.mem_deletedKeys.mpr ⟨(c.addressKey a, value), ?_, ?_, ?_⟩
        · exact List.mem_filter.mpr ⟨Store.mem_of_get hget, hc.key_under_prefix a⟩
        · simpa [hc.address_of_key] using ha
        · simp [hc.address_of_key]
      simp [hmem]

/-- The example of C9: over the stored records of `A`, `B` and `C`, pruning with the keep-set
`{A, C}` leaves the values of `A` and `C` as they were and no value for `B`. -/
theorem prune_keeps_exactly_witness :
    (VersionCertificateDB.Prune sampleCollaborators
        (sampleDB [sampleCert addrA 1, sampleCert addrB 2, sampleCert addrC 3]) keepAC).2
      = .ok () ∧
    (∀ a, keepAC a = true →
      (VersionCertificateDB.Prune sampleCollaborators
          (sampleDB [sampleCert addrA 1, sampleCert addrB 2, sampleCert addrC 3]) keepAC).1.db.get
          (sampleCollaborators.addressKey a)
        = (sampleDB [sampleCert addrA 1, sampleCert addrB 2, sampleCert addrC 3]).db.get
            (sampleCollaborators.addressKey a)) ∧
    (∀ a, keepAC a = false →
      (VersionCertificateDB.Prune sampleCollaborators
          (sampleDB [sampleCert addrA 1, sampleCert addrB 2, sampleCert addrC 3]) keepAC).1.db.get
          (sampleCollaborators.addressKey a) = none) :=
  prune_keeps_exactly sampleCollaborators sampleCollaborators_lawfulKeys
    (sampleDB [sampleCert addrA 1, sampleCert addrB 2, sampleCert addrC 3]) keepAC rfl rfl rfl

/-- C10: a failing `Prune` leaves the database untouched.  On a database in which some value
under the version-certificate prefix does not decode, `Prune` returns the decoding error of such a
value and the database is the one before the call: no record is deleted. -/
theorem prune_failure_untouched (c : Collaborators) (svdb : VersionCertificateDB)
    (addressesToKeep : Address → Bool)
    (hbad : VersionCertificateDB.allValuesDecode c svdb = false) :
    ∃ kv ∈ VersionCertificateDB.entries c svdb, ∃ err,
      decodeVersionCertificate c kv.2 = .error err ∧
      VersionCertificateDB.Prune c svdb addressesToKeep = (svdb, .error err) := by
  obtain ⟨kv, hmem, err, herr, hvisit⟩ :=
    Prune.visit_error c addressesToKeep (VersionCertificateDB.entries c svdb) [] hbad
  refine ⟨kv, hmem, err, herr, ?_⟩
  unfold VersionCertificateDB.entries at hvisit
  unfold VersionCertificateDB.Prune VersionCertificateDB.iterate GenericDB.Iterate
  cases hv : GenericDB.visit (iterate.onDBEntry c (Prune.onEntry c addressesToKeep))
      (svdb.db.filter (fun kv => c.dbAddressPrefix.isPrefixOf kv.1)) [] with
  | mk st res =>
    rw [hv] at hvisit
    simp only at hvisit
    subst hvisit
    rfl

/-- The example of C10: with the records of `A` and `C` stored and a corrupt value stored for `B`,
pruning with the keep-set `{C}` visits `A`, which is outside the keep-set, before it fails on `B`;
the database is returned as it was, the record of `A` included. -/
theorem prune_failure_untouched_witness :
    ∃ kv ∈ VersionCertificateDB.entries sampleCollaborators corruptDB, ∃ err,
      decodeVersionCertificate sampleCollaborators kv.2 = .error err ∧
      VersionCertificateDB.Prune sampleCollaborators corruptDB keepC = (corruptDB, .error err) :=
  prune_failure_untouched sampleCollaborators corruptDB keepC rfl

/-- C11: `Remove` deletes one record, whatever it is.  On a database whose commit succeeds,
`Remove` of an address returns without error whether or not a value is stored for the address;
afterwards no value is stored for it, so that `Get` returns `ErrNotFound`, and the value stored
for every other address is the one stored before. -/
theorem remove_unconditional (c : Collaborators) (hk : c.LawfulKeys)
    (svdb : VersionCertificateDB) (hw : svdb.writeFault = none) (a : Address) :
    (VersionCertificateDB.Remove c svdb a).2 = .ok () ∧
      (VersionCertificateDB.Remove c svdb a).1.db.get (c.addressKey a) = none ∧
      (svdb.getFault = none →
        VersionCertificateDB.Get c (VersionCertificateDB.Remove c svdb a).1 a
          = .error .ErrNotFound) ∧
      (∀ b, b ≠ a →
        (VersionCertificateDB.Remove c svdb a).1.db.get (c.addressKey b)
          = svdb.db.get (c.addressKey b)) := by
  have hrem : VersionCertificateDB.Remove c svdb a
      = ({ svdb with db := Store.delete (c.addressKey a) svdb.db }, .ok ()) := by
    simp [VersionCertificateDB.Remove, GenericDB.Write, hw, Batch.apply, BatchOp.apply]
  refine ⟨by rw [hrem], ?_, ?_, ?_⟩
  · simp only [hrem, Store.get_delete_same]
  · intro hg
    simp only [hrem]
    have hg2 : ({ svdb with db := Store.delete (c.addressKey a) svdb.db } :
        GenericDB).getFault = none := hg
    rw [VersionCertificateDB.Get_eq c _ hg2]
    simp only [Store.get_delete_same]
  · intro b hb
    simp only [hrem]
    exact Store.get_delete_other _ _ _ (fun h => hb (hk.addressKey_injective h))

/-- The example of C11: over the stored records `A@1` and `B@2`, removing `A` succeeds, leaves no
value for `A` and leaves the value of every other address. -/
theorem remove_unconditional_witness :
    (VersionCertificateDB.Remove sampleCollaborators
        (sampleDB [sampleCert addrA 1, sampleCert addrB 2]) addrA).2 = .ok () ∧
      (VersionCertificateDB.Remove sampleCollaborators
        (sampleDB [sampleCert addrA 1, sampleCert addrB 2]) addrA).1.db.get
          (sampleCollaborators.addressKey addrA) = none ∧
      ((sampleDB [sampleCert addrA 1, sampleCert addrB 2]).getFault = none →
        VersionCertificateDB.Get sampleCollaborators
          (VersionCertificateDB.Remove sampleCollaborators
            (sampleDB [sampleCert addrA 1, sampleCert addrB 2]) addrA).1 addrA
          = .error .ErrNotFound) ∧
      (∀ b, b ≠ addrA →
        (VersionCertificateDB.Remove sampleCollaborators
          (sampleDB [sampleCert addrA 1, sampleCert addrB 2]) addrA).1.db.get
            (sampleCollaborators.addressKey b)
          = (sampleDB [sampleCert addrA 1, sampleCert addrB 2]).db.get
              (sampleCollaborators.addressKey b)) :=
  remove_unconditional sampleCollaborators sampleCollaborators_lawfulKeys
    (sampleDB [sampleCert addrA 1, sampleCert addrB 2]) rfl addrA

/-- C12: `ErrNotFound`.  On a database whose lookups do not fail and that stores no value for an
address, `Get` of the address returns the error `ErrNotFound`, and no record, and `GetVersion`
returns the same error. -/
theorem get_notFound (c : Collaborators) (svdb : VersionCertificateDB)
    (hg : svdb.getFault = none) (a : Address)
    (habsent : svdb.db.get (c.addressKey a) = none) :
    VersionCertificateDB.Get c svdb a = .error .ErrNotFound ∧
      VersionCertificateDB.GetVersion c svdb a = .error .ErrNotFound := by
  have hget : VersionCertificateDB.Get c svdb a = .error .ErrNotFound := by
    rw [VersionCertificateDB.Get_eq c svdb hg, habsent]
  exact ⟨hget, by simp [VersionCertificateDB.GetVersion, hget]⟩

/-- The examples of C12: the empty database, the database after `Remove` of the address, and the
database after a `Prune` that dropped the address. -/
theorem get_notFound_witness :
    (VersionCertificateDB.Get sampleCollaborators emptyDB addrA = .error .ErrNotFound ∧
      VersionCertificateDB.GetVersion sampleCollaborators emptyDB addrA
        = .error .ErrNotFound) ∧
    (VersionCertificateDB.Get sampleCollaborators
        (VersionCertificateDB.Remove sampleCollaborators (sampleDB [sampleCert addrA 1])
          addrA).1 addrA = .error .ErrNotFound ∧
      VersionCertificateDB.GetVersion sampleCollaborators
        (VersionCertificateDB.Remove sampleCollaborators (sampleDB [sampleCert addrA 1])
          addrA).1 addrA = .error .ErrNotFound) ∧
    (VersionCertificateDB.Get sampleCollaborators
        (VersionCertificateDB.Prune sampleCollaborators
          (sampleDB [sampleCert addrA 1, sampleCert addrC 3]) keepC).1 addrA
        = .error .ErrNotFound ∧
      VersionCertificateDB.GetVersion sampleCollaborators
        (VersionCertificateDB.Prune sampleCollaborators
          (sampleDB [sampleCert addrA 1, sampleCert addrC 3]) keepC).1 addrA
        = .error .ErrNotFound) :=
  ⟨get_notFound sampleCollaborators emptyDB rfl addrA rfl,
    get_notFound sampleCollaborators
      (VersionCertificateDB.Remove sampleCollaborators (sampleDB [sampleCert addrA 1]) addrA).1
      rfl addrA rfl,
    get_notFound sampleCollaborators
      (VersionCertificateDB.Prune sampleCollaborators
        (sampleDB [sampleCert addrA 1, sampleCert addrC 3]) keepC).1 rfl addrA rfl⟩

/-- C13: decoding rejects truncated input.  When the decoder of the four fields rejects the
proper prefixes of an encoding, `decodeVersionCertificate` of a proper prefix of the encoding of a
certificate, the empty byte string included, returns that error and no certificate. -/
theorem decode_rejects_truncation (c : Collaborators) (ht : c.RejectsTruncation)
    (r : VersionCertificate) (b p : Bytes) (hb : encodeVersionCertificate c r = .ok b)
    (hp : p <+: b) (hne : p ≠ b) :
    ∃ err, c.DecodeBytes p = .error err ∧
      decodeVersionCertificate c p = .error (.codec err) := by
  have henc : c.EncodeToBytes
      { Address := r.address, PublicKey := c.FromECDSAPub r.pubKey, Version := r.Version,
        Signature := r.Signature } = .ok b := by
    unfold encodeVersionCertificate at hb
    split at hb
    · exact absurd hb (by simp)
    · next b2 h2 => rw [h2, Except.ok.inj hb]
  obtain ⟨err, herr⟩ := ht _ b p henc hp hne
  exact ⟨err, herr, by simp [decodeVersionCertificate, herr]⟩

/-- The example of C13: the encoding of the sample certificate `A@5` cut before its signature
does not decode. -/
theorem decode_rejects_truncation_witness :
    ∃ err,
      sampleCollaborators.DecodeBytes
          [27, 1, 1, 1, 1, 1, 1, 1, 1, 1, 1, 1, 1, 1, 1, 1, 1, 1, 1, 1, 1, 3, 4, 1, 5, 5]
        = .error err ∧
      decodeVersionCertificate sampleCollaborators
          [27, 1, 1, 1, 1, 1, 1, 1, 1, 1, 1, 1, 1, 1, 1, 1, 1, 1, 1, 1, 1, 3, 4, 1, 5, 5]
        = .error (.codec err) :=
  decode_rejects_truncation sampleCollaborators sampleCollaborators_rejectsTruncation
    (sampleCert addrA 5)
    [27, 1, 1, 1, 1, 1, 1, 1, 1, 1, 1, 1, 1, 1, 1, 1, 1, 1, 1, 1, 1, 3, 4, 1, 5, 5, 5, 9]
    [27, 1, 1, 1, 1, 1, 1, 1, 1, 1, 1, 1, 1, 1, 1, 1, 1, 1, 1, 1, 1, 3, 4, 1, 5, 5]
    rfl ⟨[5, 9], rfl⟩ (by decide)

/-! ## Lemmas on the keys of the staged operations -/

theorem Batch.get_apply_frame (batch : Batch) :
    ∀ (s : Store) (key : Bytes), (∀ op ∈ batch, op.key ≠ key) →
      (Batch.apply s batch).get key = s.get key := by
  induction batch with
  | nil => intro s key _; rfl
  | cons op rest ih =>
    intro s key h
    have hop := h op (List.mem_cons_self _ _)
    have hstep : Batch.apply s (op :: rest) = Batch.apply (BatchOp.apply s op) rest := by
      simp [Batch.apply]
    rw [hstep, ih _ _ (fun o ho => h o (List.mem_cons_of_mem _ ho))]
    cases op with
    | Put k v => exact Store.get_put_other _ _ _ _ (fun heq => hop heq.symm)
    | Delete k => exact Store.get_delete_other _ _ _ (fun heq => hop heq.symm)

theorem Upsert.stagedPuts_keys (c : Collaborators) (xs : List VersionCertificate) :
    ∀ op ∈ Upsert.stagedPuts c xs, ∃ a, op.key = c.addressKey a := by
  induction xs with
  | nil => intro op h; simp [Upsert.stagedPuts] at h
  | cons x rest ih =>
    intro op h
    cases henc : encodeVersionCertificate c x with
    | error err =>
      simp only [Upsert.stagedPuts, henc] at h
      exact ih op h
    | ok b =>
      simp only [Upsert.stagedPuts, henc, List.mem_cons] at h
      rcases h with rfl | h
      · exact ⟨x.address, rfl⟩
      · exact ih op h

theorem GenericDB.apply_nil (gdb : GenericDB) :
    gdb = { gdb with db := Batch.apply gdb.db [] } := by
  cases gdb
  rfl

/-- Whatever it returns, `Upsert` leaves the database that a batch of operations on keys of
addresses leaves. -/
theorem Upsert.upsert_exists_batch (c : Collaborators) (svdb : VersionCertificateDB)
    (cs : List VersionCertificate) :
    ∃ batch : Batch, (∀ op ∈ batch, ∃ a, op.key = c.addressKey a) ∧
      (VersionCertificateDB.Upsert c svdb cs).1
        = { svdb with db := Batch.apply svdb.db batch } := by
  cases hres : (VersionCertificateDB.Upsert c svdb cs).2 with
  | ok acc =>
    obtain ⟨-, hup, -⟩ := VersionCertificateDB.Upsert_ok c svdb cs acc hres
    exact ⟨_, Upsert.stagedPuts_keys c _, by rw [hup]⟩
  | error err =>
    refine ⟨[], by simp, ?_⟩
    rw [← GenericDB.apply_nil]
    rw [VersionCertificateDB.Upsert_eq] at hres ⊢
    cases hloop : Upsert.loop c svdb (cs.map GenericEntry.versionCertificate) ([], []) with
    | error err2 => rfl
    | ok st =>
      cases hw : svdb.writeFault with
      | some code => rfl
      | none => simp [hloop, hw] at hres

/-- Whatever it returns, `Remove` leaves the database that a batch of operations on keys of
addresses leaves. -/
theorem Remove.remove_exists_batch (c : Collaborators) (svdb : VersionCertificateDB) (a : Address) :
    ∃ batch : Batch, (∀ op ∈ batch, ∃ a, op.key = c.addressKey a) ∧
      (VersionCertificateDB.Remove c svdb a).1
        = { svdb with db := Batch.apply svdb.db batch } := by
  rcases Option.eq_none_or_eq_some svdb.writeFault with hw | ⟨code, hw⟩
  · refine ⟨[BatchOp.Delete (c.addressKey a)], ?_, ?_⟩
    · intro op hop
      rw [List.mem_singleton.mp hop]
      exact ⟨a, rfl⟩
    · simp [VersionCertificateDB.Remove, GenericDB.Write, hw]
  · have hsame : (VersionCertificateDB.Remove c svdb a).1 = svdb := by
      simp [VersionCertificateDB.Remove, GenericDB.Write, hw]
    exact ⟨[], by simp, hsame.trans (GenericDB.apply_nil svdb)⟩

/-- Whatever it returns, `Prune` leaves the database that a batch of operations on keys of
addresses leaves. -/
theorem Prune.prune_exists_batch (c : Collaborators) (svdb : VersionCertificateDB)
    (addressesToKeep : Address → Bool) :
    ∃ batch : Batch, (∀ op ∈ batch, ∃ a, op.key = c.addressKey a) ∧
      (VersionCertificateDB.Prune c svdb addressesToKeep).1
        = { svdb with db := Batch.apply svdb.db batch } := by
  cases hall : VersionCertificateDB.allValuesDecode c svdb with
  | false =>
    obtain ⟨kv, -, err, -, hvisit⟩ :=
      Prune.visit_error c addressesToKeep (VersionCertificateDB.entries c svdb) [] hall
    refine ⟨[], by simp, ?_⟩
    rw [← GenericDB.apply_nil]
    unfold VersionCertificateDB.entries at hvisit
    unfold VersionCertificateDB.Prune VersionCertificateDB.iterate GenericDB.Iterate
    cases hv : GenericDB.visit (iterate.onDBEntry c (Prune.onEntry c addressesToKeep))
        (svdb.db.filter (fun kv => c.dbAddressPrefix.isPrefixOf kv.1)) [] with
    | mk st res =>
      rw [hv] at hvisit
      simp only at hvisit
      subst hvisit
      rfl
  | true =>
    have hvisit := Prune.visit_ok c addressesToKeep (VersionCertificateDB.entries c svdb) [] hall
    unfold VersionCertificateDB.entries at hvisit
    rcases Option.eq_none_or_eq_some svdb.iterFault with hi | ⟨code, hi⟩
    · rcases Option.eq_none_or_eq_some svdb.writeFault with hw | ⟨code, hw⟩
      · refine ⟨(Prune.deletedKeys c addressesToKeep
          (VersionCertificateDB.entries c svdb)).map BatchOp.Delete, ?_, ?_⟩
        · intro op hop
          obtain ⟨key, hkey, rfl⟩ := List.mem_map.mp hop
          obtain ⟨kv, -, -, hk⟩ := Prune.mem_deletedKeys.mp hkey
          exact ⟨c.BytesToAddress kv.1, hk.symm⟩
        · simp [VersionCertificateDB.Prune, VersionCertificateDB.iterate, GenericDB.Iterate,
            hvisit, hi, GenericDB.Write, hw, VersionCertificateDB.entries]
      · have hsame : (VersionCertificateDB.Prune c svdb addressesToKeep).1 = svdb := by
          simp [VersionCertificateDB.Prune, VersionCertificateDB.iterate, GenericDB.Iterate,
            hvisit, hi, GenericDB.Write, hw]
        exact ⟨[], by simp, hsame.trans (GenericDB.apply_nil svdb)⟩
    · have hsame : (VersionCertificateDB.Prune c svdb addressesToKeep).1 = svdb := by
        simp [VersionCertificateDB.Prune, VersionCertificateDB.iterate, GenericDB.Iterate,
          hvisit, hi]
      exact ⟨[], by simp, hsame.trans (GenericDB.apply_nil svdb)⟩

/-- A batch of operations on keys of addresses leaves alone the keys outside the prefix. -/
theorem Batch.frame_of_address_keys (c : Collaborators)
    (hkey : ∀ a, c.addressKey a = c.dbAddressPrefix ++ a.bytes) (batch : Batch)
    (hbatch : ∀ op ∈ batch, ∃ a, op.key = c.addressKey a) (s : Store) (key : Bytes)
    (hout : c.dbAddressPrefix.isPrefixOf key = false) :
    (Batch.apply s batch).get key = s.get key := by
  apply Batch.get_apply_frame
  intro op hop heq
  obtain ⟨a, ha⟩ := hbatch op hop
  have hin : c.dbAddressPrefix.isPrefixOf (c.dbAddressPrefix ++ a.bytes) = true := by simp
  rw [← heq, ha, hkey, hin] at hout
  exact absurd hout (by simp)

/-- C14: the key-prefix frame.  When the key of an address is the prefix followed by the address
bytes, every call of `Upsert`, `Remove` or `Prune`, on every database and whatever it returns,
leaves the database that a batch of puts and deletes on keys of that form leaves; and the value
stored, or its absence, under every key that does not start with the prefix is the same after the
call as before. -/
theorem prefix_frame (c : Collaborators)
    (hkey : ∀ a, c.addressKey a = c.dbAddressPrefix ++ a.bytes) (svdb : VersionCertificateDB) :
    (∀ cs, ∃ batch : Batch,
        (∀ op ∈ batch, ∃ a : Address, op.key = c.dbAddressPrefix ++ a.bytes) ∧
        (VersionCertificateDB.Upsert c svdb cs).1
          = { svdb with db := Batch.apply svdb.db batch }) ∧
    (∀ a, ∃ batch : Batch,
        (∀ op ∈ batch, ∃ a : Address, op.key = c.dbAddressPrefix ++ a.bytes) ∧
        (VersionCertificateDB.Remove c svdb a).1
          = { svdb with db := Batch.apply svdb.db batch }) ∧
    (∀ addressesToKeep, ∃ batch : Batch,
        (∀ op ∈ batch, ∃ a : Address, op.key = c.dbAddressPrefix ++ a.bytes) ∧
        (VersionCertificateDB.Prune c svdb addressesToKeep).1
          = { svdb with db := Batch.apply svdb.db batch }) ∧
    (∀ key, c.dbAddressPrefix.isPrefixOf key = false →
      (∀ cs, (VersionCertificateDB.Upsert c svdb cs).1.db.get key = svdb.db.get key) ∧
      (∀ a, (VersionCertificateDB.Remove c svdb a).1.db.get key = svdb.db.get key) ∧
      (∀ addressesToKeep,
        (VersionCertificateDB.Prune c svdb addressesToKeep).1.db.get key
          = svdb.db.get key)) := by
  have hform : ∀ batch : Batch, (∀ op ∈ batch, ∃ a, op.key = c.addressKey a) →
      ∀ op ∈ batch, ∃ a : Address, op.key = c.dbAddressPrefix ++ a.bytes := by
    intro batch h op hop
    obtain ⟨a, ha⟩ := h op hop
    exact ⟨a, by rw [ha, hkey]⟩
  refine ⟨?_, ?_, ?_, ?_⟩
  · intro cs
    obtain ⟨batch, hb, heq⟩ := Upsert.upsert_exists_batch c svdb cs
    exact ⟨batch, hform batch hb, heq⟩
  · intro a
    obtain ⟨batch, hb, heq⟩ := Remove.remove_exists_batch c svdb a
    exact ⟨batch, hform batch hb, heq⟩
  · intro keep
    obtain ⟨batch, hb, heq⟩ := Prune.prune_exists_batch c svdb keep
    exact ⟨batch, hform batch hb, heq⟩
  · intro key hout
    refine ⟨?_, ?_, ?_⟩
    · intro cs
      obtain ⟨batch, hb, heq⟩ := Upsert.upsert_exists_batch c svdb cs
      rw [heq]
      exact Batch.frame_of_address_keys c hkey batch hb _ key hout
    · intro a
      obtain ⟨batch, hb, heq⟩ := Remove.remove_exists_batch c svdb a
      rw [heq]
      exact Batch.frame_of_address_keys c hkey batch hb _ key hout
    · intro keep
      obtain ⟨batch, hb, heq⟩ := Prune.prune_exists_batch c svdb keep
      rw [heq]
      exact Batch.frame_of_address_keys c hkey batch hb _ key hout

/-- The example of C14: over the stored records `A@1` and `B@2`, the key `[1, 2, 3]`, which does
not start with the prefix, holds the same after an `Upsert`, a `Remove` and a `Prune`. -/
theorem prefix_frame_witness :
    (∀ cs, (VersionCertificateDB.Upsert sampleCollaborators
          (sampleDB [sampleCert addrA 1, sampleCert addrB 2]) cs).1.db.get [1, 2, 3]
        = (sampleDB [sampleCert addrA 1, sampleCert addrB 2]).db.get [1, 2, 3]) ∧
    (∀ a, (VersionCertificateDB.Remove sampleCollaborators
          (sampleDB [sampleCert addrA 1, sampleCert addrB 2]) a).1.db.get [1, 2, 3]
        = (sampleDB [sampleCert addrA 1, sampleCert addrB 2]).db.get [1, 2, 3]) ∧
    (∀ addressesToKeep, (VersionCertificateDB.Prune sampleCollaborators
          (sampleDB [sampleCert addrA 1, sampleCert addrB 2]) addressesToKeep).1.db.get [1, 2, 3]
        = (sampleDB [sampleCert addrA 1, sampleCert addrB 2]).db.get [1, 2, 3]) :=
  (prefix_frame sampleCollaborators (fun _ => rfl)
    (sampleDB [sampleCert addrA 1, sampleCert addrB 2])).2.2.2 [1, 2, 3] rfl

/-! ## Lemmas on `iterate`, `GetAll` and `Info` -/

theorem VersionCertificateDB.iterate_eq {σ : Type} (c : Collaborators)
    (svdb : VersionCertificateDB)
    (onEntry : σ → Address → VersionCertificate → Except Error σ) (init : σ) :
    VersionCertificateDB.iterate c svdb onEntry init =
      match GenericDB.visit (iterate.onDBEntry c onEntry)
          (VersionCertificateDB.entries c svdb) init with
      | (st, .error err) => (st, .error err)
      | (st, .ok _) =>
        match svdb.iterFault with
        | some code => (st, .error (.engine code))
        | none => (st, .ok ()) := rfl

/-- The visits of a visitor that never fails, over entries one of which does not decode: the error
of the first such entry is returned. -/
theorem iterate.visit_decode_error {σ : Type} (c : Collaborators)
    (onEntry : σ → Address → VersionCertificate → Except Error σ)
    (honEntry : ∀ st a e, ∃ st2, onEntry st a e = .ok st2) (visited : List (Bytes × Bytes)) :
    ∀ st : σ, visited.all (fun kv => decodes c kv.2) = false →
      ∃ kv ∈ visited, ∃ err, decodeVersionCertificate c kv.2 = .error err ∧
        (GenericDB.visit (iterate.onDBEntry c onEntry) visited st).2 = .error err := by
  induction visited with
  | nil => intro st h; simp at h
  | cons kv rest ih =>
    intro st hall
    obtain ⟨k, v⟩ := kv
    cases hdec : decodeVersionCertificate c v with
    | error err =>
      exact ⟨(k, v), List.mem_cons_self _ _, err, hdec,
        by simp [GenericDB.visit, iterate.onDBEntry, hdec]⟩
    | ok entry =>
      have hrest : rest.all (fun kv => decodes c kv.2) = false := by
        simpa [List.all_cons, decodes, hdec] using hall
      obtain ⟨st2, hst2⟩ := honEntry st (c.BytesToAddress k) entry
      obtain ⟨kv2, hmem, err, herr, hvisit⟩ := ih st2 hrest
      exact ⟨kv2, List.mem_cons_of_mem _ hmem, err, herr,
        by simp [GenericDB.visit, iterate.onDBEntry, hdec, hst2, hvisit]⟩

/-- The visits of `GetAll` over entries that all decode: the certificates are appended, one per
entry, in order. -/
theorem GetAll.getAll_visit_ok (c : Collaborators) (visited : List (Bytes × Bytes)) :
    ∀ acc : List VersionCertificate, visited.all (fun kv => decodes c kv.2) = true →
      ∃ certs, GenericDB.visit (iterate.onDBEntry c GetAll.onEntry) visited acc
          = (acc ++ certs, .ok ()) ∧
        List.Forall₂ (fun kv r => decodeVersionCertificate c kv.2 = .ok r) visited certs := by
  induction visited with
  | nil => intro acc _; exact ⟨[], by simp [GenericDB.visit], List.Forall₂.nil⟩
  | cons kv rest ih =>
    intro acc hall
    obtain ⟨k, v⟩ := kv
    simp only [List.all_cons, Bool.and_eq_true] at hall
    obtain ⟨hv, hrest⟩ := hall
    cases hdec : decodeVersionCertificate c v with
    | error err => simp [decodes, hdec] at hv
    | ok entry =>
      obtain ⟨certs, hvisit, hrel⟩ := ih (acc ++ [entry]) hrest
      refine ⟨entry :: certs, ?_, List.Forall₂.cons hdec hrel⟩
      simp [GenericDB.visit, iterate.onDBEntry, hdec, GetAll.onEntry, hvisit]

theorem InfoMap.set_of_not_mem (key : String) (value : VersionCertificateEntryInfo) :
    ∀ m : InfoMap, key ∉ m.map Prod.fst → InfoMap.set key value m = m ++ [(key, value)] := by
  intro m
  induction m with
  | nil => intro _; rfl
  | cons kv rest ih =>
    intro h
    obtain ⟨k, v⟩ := kv
    simp only [List.map_cons, List.mem_cons, not_or] at h
    simp [InfoMap.set, Ne.symm h.1, ih h.2]

/-- The visits of `Info` over entries that all decode and whose addresses have pairwise distinct
hexadecimal forms, none of them a key of the map yet: one entry is appended per visited entry, in
order. -/
theorem Info.info_visit_ok (c : Collaborators) (visited : List (Bytes × Bytes)) :
    ∀ m0 : InfoMap, visited.all (fun kv => decodes c kv.2) = true →
      (m0.map Prod.fst ++ visited.map (fun kv => c.Hex (c.BytesToAddress kv.1))).Nodup →
      ∃ m, GenericDB.visit (iterate.onDBEntry c (Info.onEntry c)) visited m0
          = (m0 ++ m, .ok ()) ∧
        List.Forall₂
          (fun kv e => e.1 = c.Hex (c.BytesToAddress kv.1) ∧
            ∃ r, decodeVersionCertificate c kv.2 = .ok r ∧
              e.2 = { Address := c.Hex r.address, Version := r.Version })
          visited m := by
  induction visited with
  | nil => intro m0 _ _; exact ⟨[], by simp [GenericDB.visit], List.Forall₂.nil⟩
  | cons kv rest ih =>
    intro m0 hall hnodup
    obtain ⟨k, v⟩ := kv
    simp only [List.all_cons, Bool.and_eq_true] at hall
    obtain ⟨hv, hrest⟩ := hall
    cases hdec : decodeVersionCertificate c v with
    | error err => simp [decodes, hdec] at hv
    | ok entry =>
      have hfresh : c.Hex (c.BytesToAddress k) ∉ m0.map Prod.fst := by
        intro hmem
        rw [List.nodup_append] at hnodup
        exact hnodup.2.2 hmem (List.mem_cons_self _ _)
      have hnodup2 : ((m0 ++ [(c.Hex (c.BytesToAddress k),
          ({ Address := c.Hex entry.address, Version := entry.Version } :
            VersionCertificateEntryInfo))]).map Prod.fst
            ++ rest.map (fun kv => c.Hex (c.BytesToAddress kv.1))).Nodup := by
        simpa [List.map_append, List.append_assoc] using hnodup
      obtain ⟨m, hvisit, hrel⟩ := ih _ hrest hnodup2
      refine ⟨(c.Hex (c.BytesToAddress k),
        { Address := c.Hex entry.address, Version := entry.Version }) :: m, ?_,
        List.Forall₂.cons ⟨rfl, entry, hdec, rfl⟩ hrel⟩
      simp [GenericDB.visit, iterate.onDBEntry, hdec, Info.onEntry,
        InfoMap.set_of_not_mem _ _ m0 hfresh, hvisit]

theorem forall₂_exists_of_mem_left {α β : Type} {R : α → β → Prop} {l1 : List α}
    {l2 : List β} (h : List.Forall₂ R l1 l2) {x : α} (hx : x ∈ l1) : ∃ y ∈ l2, R x y := by
  induction h with
  | nil => simp at hx
  | cons hr _ ih =>
    rcases List.mem_cons.mp hx with rfl | hx
    · exact ⟨_, List.mem_cons_self _ _, hr⟩
    · obtain ⟨y, hy, hxy⟩ := ih hx
      exact ⟨y, List.mem_cons_of_mem _ hy, hxy⟩

/-- C15: the projection `Info`.  On a database all of whose values decode, whose iteration does
not fail and whose stored addresses have pairwise distinct hexadecimal forms, `Info` returns no
error and a map with exactly one entry per stored record, in the order of the records, and no
other entry; the key of the entry is the hexadecimal form of the address of the key of the
record, its `Address` the hexadecimal form of the address field of the record and its `Version`
the version of the record.  In particular the record stored for an address `a` has its entry
under the key `Hex a`. -/
theorem info_projection (c : Collaborators) (hk : c.LawfulKeys) (svdb : VersionCertificateDB)
    (hi : svdb.iterFault = none) (hall : VersionCertificateDB.allValuesDecode c svdb = true)
    (hdistinct : ((VersionCertificateDB.entries c svdb).map
      (fun kv => c.Hex (c.BytesToAddress kv.1))).Nodup) :
    ∃ m, VersionCertificateDB.Info c svdb = (m, .ok ()) ∧
      List.Forall₂
        (fun kv e => e.1 = c.Hex (c.BytesToAddress kv.1) ∧
          ∃ r, decodeVersionCertificate c kv.2 = .ok r ∧
            e.2 = { Address := c.Hex r.address, Version := r.Version })
        (VersionCertificateDB.entries c svdb) m ∧
      ∀ a value, svdb.db.get (c.addressKey a) = some value →
        ∃ r, decodeVersionCertificate c value = .ok r ∧
          (c.Hex a, { Address := c.Hex r.address, Version := r.Version }) ∈ m := by
  obtain ⟨m, hvisit, hrel⟩ :=
    Info.info_visit_ok c (VersionCertificateDB.entries c svdb) [] hall (by simpa using hdistinct)
  refine ⟨m, ?_, hrel, ?_⟩
  · unfold VersionCertificateDB.Info
    rw [VersionCertificateDB.iterate_eq, hvisit]
    simp [hi]
  · intro a value hget
    have hmem : (c.addressKey a, value) ∈ VersionCertificateDB.entries c svdb :=
      List.mem_filter.mpr ⟨Store.mem_of_get hget, hk.key_under_prefix a⟩
    obtain ⟨e, he, hkey, r, hr, hval⟩ := forall₂_exists_of_mem_left hrel hmem
    refine ⟨r, hr, ?_⟩
    simp only [hk.address_of_key] at hkey
    rw [← hkey, ← hval]
    exact he

/-- The example of C15: over the stored records `A@1` and `B@2`, `Info` returns the two entries
of `A` and `B`. -/
theorem info_projection_witness :
    ∃ m, VersionCertificateDB.Info sampleCollaborators
        (sampleDB [sampleCert addrA 1, sampleCert addrB 2]) = (m, .ok ()) ∧
      List.Forall₂
        (fun kv e => e.1 = sampleCollaborators.Hex (sampleCollaborators.BytesToAddress kv.1) ∧
          ∃ r, decodeVersionCertificate sampleCollaborators kv.2 = .ok r ∧
            e.2 = { Address := sampleCollaborators.Hex r.address, Version := r.Version })
        (VersionCertificateDB.entries sampleCollaborators
          (sampleDB [sampleCert addrA 1, sampleCert addrB 2])) m ∧
      ∀ a value,
        (sampleDB [sampleCert addrA 1, sampleCert addrB 2]).db.get
            (sampleCollaborators.addressKey a) = some value →
        ∃ r, decodeVersionCertificate sampleCollaborators value = .ok r ∧
          (sampleCollaborators.Hex a,
            { Address := sampleCollaborators.Hex r.address, Version := r.Version }) ∈ m :=
  info_projection sampleCollaborators sampleCollaborators_lawfulKeys
    (sampleDB [sampleCert addrA 1, sampleCert addrB 2]) rfl rfl (by decide)

/-- C16: `GetAll` returns no partial result.  On a database in which some value under the prefix
does not decode, `GetAll` returns the decoding error of such a value together with the nil slice,
whatever was visited before; on a database all of whose values decode and whose iteration does
not fail, it returns without error exactly one certificate per stored record, the decoded record,
in the order of the records. -/
theorem getAll_whole_or_nil (c : Collaborators) (svdb : VersionCertificateDB) :
    (VersionCertificateDB.allValuesDecode c svdb = false →
      ∃ kv ∈ VersionCertificateDB.entries c svdb, ∃ err,
        decodeVersionCertificate c kv.2 = .error err ∧
        VersionCertificateDB.GetAll c svdb = ([], .error err)) ∧
    (VersionCertificateDB.allValuesDecode c svdb = true → svdb.iterFault = none →
      ∃ certs, VersionCertificateDB.GetAll c svdb = (certs, .ok ()) ∧
        List.Forall₂ (fun kv r => decodeVersionCertificate c kv.2 = .ok r)
          (VersionCertificateDB.entries c svdb) certs) := by
  refine ⟨fun hbad => ?_, fun hall hi => ?_⟩
  · obtain ⟨kv, hmem, err, herr, hvisit⟩ :=
      iterate.visit_decode_error c GetAll.onEntry (fun st _ e => ⟨st ++ [e], rfl⟩)
        (VersionCertificateDB.entries c svdb) [] hbad
    refine ⟨kv, hmem, err, herr, ?_⟩
    unfold VersionCertificateDB.GetAll
    rw [VersionCertificateDB.iterate_eq]
    cases hv : GenericDB.visit (iterate.onDBEntry c GetAll.onEntry)
        (VersionCertificateDB.entries c svdb) [] with
    | mk st res =>
      rw [hv] at hvisit
      simp only at hvisit
      subst hvisit
      rfl
  · obtain ⟨certs, hvisit, hrel⟩ :=
      GetAll.getAll_visit_ok c (VersionCertificateDB.entries c svdb) [] hall
    refine ⟨certs, ?_, hrel⟩
    unfold VersionCertificateDB.GetAll
    rw [VersionCertificateDB.iterate_eq, hvisit]
    simp [hi]

/-- The examples of C16: with the records of `A` and `C` stored and a corrupt value stored for
`B`, `GetAll` visits `A` and fails on `B` with the nil slice; over the stored records `A@1` and
`B@2` it returns the two certificates. -/
theorem getAll_whole_or_nil_witness :
    (∃ kv ∈ VersionCertificateDB.entries sampleCollaborators corruptDB, ∃ err,
      decodeVersionCertificate sampleCollaborators kv.2 = .error err ∧
      VersionCertificateDB.GetAll sampleCollaborators corruptDB = ([], .error err)) ∧
    (∃ certs, VersionCertificateDB.GetAll sampleCollaborators
        (sampleDB [sampleCert addrA 1, sampleCert addrB 2]) = (certs, .ok ()) ∧
      List.Forall₂ (fun kv r => decodeVersionCertificate sampleCollaborators kv.2 = .ok r)
        (VersionCertificateDB.entries sampleCollaborators
          (sampleDB [sampleCert addrA 1, sampleCert addrB 2])) certs) :=
  ⟨(getAll_whole_or_nil sampleCollaborators corruptDB).1 rfl,
    (getAll_whole_or_nil sampleCollaborators
      (sampleDB [sampleCert addrA 1, sampleCert addrB 2])).2 rfl rfl⟩

/-- C17 does not hold of `Info`: with the records of `A` and `C` stored and a corrupt value stored
for `B`, `Info` returns the decoding error together with the entry of `A`, which was visited
before the failure, where `GetAll` returns the nil slice. -/
theorem info_entries_on_error :
    VersionCertificateDB.allValuesDecode sampleCollaborators corruptDB = false ∧
    VersionCertificateDB.Info sampleCollaborators corruptDB
      = ([(sampleHex addrA, { Address := sampleHex addrA, Version := 1 })],
          .error (.codec (.rlp 0))) ∧
    VersionCertificateDB.GetAll sampleCollaborators corruptDB
      = ([], .error (.codec (.rlp 0))) :=
  ⟨rfl, rfl, rfl⟩

/-! ## Lemmas on the end-to-end scenario -/

/-- The operations of the scenario on a database that holds the records of two addresses and
nothing else, in either order of their keys. -/
theorem scenario_two_records (c : Collaborators) (kA kB vA vB : Bytes) (A B : Address)
    (rA rB : VersionCertificate) (hpA : c.dbAddressPrefix.isPrefixOf kA = true)
    (hpB : c.dbAddressPrefix.isPrefixOf kB = true) (hBA : c.BytesToAddress kA = A)
    (hBB : c.BytesToAddress kB = B) (hkA : c.addressKey A = kA)
    (hdA : decodeVersionCertificate c vA = .ok rA) (hdB : decodeVersionCertificate c vB = .ok rB)
    (hAB : A ≠ B) (hk : kA ≠ kB) (S : Store)
    (hS : S = [(kA, vA), (kB, vB)] ∨ S = [(kB, vB), (kA, vA)]) :
    (∃ certs, VersionCertificateDB.GetAll c (GenericDB.healthy S) = (certs, .ok ()) ∧
        certs.Perm [rA, rB]) ∧
      VersionCertificateDB.Prune c (GenericDB.healthy S) (fun x => decide (x = B))
        = (GenericDB.healthy [(kB, vB)], .ok ()) ∧
      VersionCertificateDB.GetAll c (GenericDB.healthy [(kB, vB)]) = ([rB], .ok ()) ∧
      VersionCertificateDB.Get c (GenericDB.healthy [(kB, vB)]) A = .error .ErrNotFound := by
  refine ⟨?_, ?_, ?_, ?_⟩
  · rcases hS with rfl | rfl
    · refine ⟨[rA, rB], ?_, List.Perm.refl _⟩
      simp [VersionCertificateDB.GetAll, VersionCertificateDB.iterate, GenericDB.Iterate,
        GenericDB.healthy, GenericDB.visit, iterate.onDBEntry, GetAll.onEntry, hpA, hpB, hdA, hdB]
    · refine ⟨[rB, rA], ?_, List.Perm.swap _ _ _⟩
      simp [VersionCertificateDB.GetAll, VersionCertificateDB.iterate, GenericDB.Iterate,
        GenericDB.healthy, GenericDB.visit, iterate.onDBEntry, GetAll.onEntry, hpA, hpB, hdA, hdB]
  · rcases hS with rfl | rfl
    · simp [VersionCertificateDB.Prune, VersionCertificateDB.iterate, GenericDB.Iterate,
        GenericDB.healthy, GenericDB.visit, iterate.onDBEntry, Prune.onEntry, hpA, hpB, hdA, hdB,
        hBA, hBB, hAB, hkA, GenericDB.Write, Batch.apply, BatchOp.apply, Store.delete, hk.symm]
    · simp [VersionCertificateDB.Prune, VersionCertificateDB.iterate, GenericDB.Iterate,
        GenericDB.healthy, GenericDB.visit, iterate.onDBEntry, Prune.onEntry, hpA, hpB, hdA, hdB,
        hBA, hBB, hAB, hkA, GenericDB.Write, Batch.apply, BatchOp.apply, Store.delete, hk.symm]
  · simp [VersionCertificateDB.GetAll, VersionCertificateDB.iterate, GenericDB.Iterate,
      GenericDB.healthy, GenericDB.visit, iterate.onDBEntry, GetAll.onEntry, hpB, hdB]
  · simp [VersionCertificateDB.Get, GenericDB.Get, GenericDB.healthy, Store.get, hkA, hk.symm]

theorem Store.put_pair (kA kB vA vB : Bytes) (hk : kA ≠ kB) :
    Store.put kB vB (Store.put kA vA []) = [(kA, vA), (kB, vB)] ∨
      Store.put kB vB (Store.put kA vA []) = [(kB, vB), (kA, vA)] := by
  by_cases hlt : kB < kA
  · exact Or.inr (by simp [Store.put, hlt])
  · exact Or.inl (by simp [Store.put, hlt, hk])

/-- C18: the end-to-end scenario.  For two well-formed certificates `a1` and `b1` of distinct
addresses `A` and `B`, starting from the empty database: `Upsert([a1, b1])` returns
`[a1, b1]` and `GetAll` then returns the two certificates; a following `Upsert([a1])` returns
the empty list and leaves the database unchanged; a following `Prune` with the keep-set `{B}`
succeeds and leaves `GetAll` returning `[b1]`; and `Get` of `A` then returns `ErrNotFound`. -/
theorem end_to_end_scenario (c : Collaborators) (hk : c.LawfulKeys) (hc : c.LawfulCodec)
    (a1 b1 : VersionCertificate) (hwa : a1.WellFormed c) (hwb : b1.WellFormed c)
    (hAB : a1.address ≠ b1.address) (db1 db2 db3 : VersionCertificateDB)
    (h1 : db1 = (VersionCertificateDB.Upsert c (GenericDB.healthy []) [a1, b1]).1)
    (h2 : db2 = (VersionCertificateDB.Upsert c db1 [a1]).1)
    (h3 : db3 = (VersionCertificateDB.Prune c db2 (fun x => decide (x = b1.address))).1) :
    (VersionCertificateDB.Upsert c (GenericDB.healthy []) [a1, b1]).2 = .ok [a1, b1] ∧
      (∃ certs, VersionCertificateDB.GetAll c db1 = (certs, .ok ()) ∧ certs.Perm [a1, b1]) ∧
      (VersionCertificateDB.Upsert c db1 [a1]).2 = .ok [] ∧
      db2 = db1 ∧
      (VersionCertificateDB.Prune c db2 (fun x => decide (x = b1.address))).2 = .ok () ∧
      VersionCertificateDB.GetAll c db3 = ([b1], .ok ()) ∧
      VersionCertificateDB.Get c db3 a1.address = .error .ErrNotFound := by
  obtain ⟨vA, hvA⟩ := encodeVersionCertificate_total hc a1
  obtain ⟨vB, hvB⟩ := encodeVersionCertificate_total hc b1
  have hdA := decode_of_encode hc a1 hwa vA hvA
  have hdB := decode_of_encode hc b1 hwb vB hvB
  have hkeys : c.addressKey a1.address ≠ c.addressKey b1.address :=
    fun h => hAB (hk.addressKey_injective h)
  have hempty : ∀ x : Address,
      VersionCertificateDB.Get c (GenericDB.healthy []) x = .error .ErrNotFound := by
    intro x
    simp [VersionCertificateDB.Get, GenericDB.Get, GenericDB.healthy, Store.get]
  have hup1 : VersionCertificateDB.Upsert c (GenericDB.healthy []) [a1, b1]
      = (GenericDB.healthy (Store.put (c.addressKey b1.address) vB
          (Store.put (c.addressKey a1.address) vA [])), .ok [a1, b1]) := by
    rw [VersionCertificateDB.Upsert_eq]
    simp only [List.map_cons, List.map_nil]
    rw [Upsert.loop_cons_absent c _ a1 _ _ vA (hempty _) hvA,
      Upsert.loop_cons_absent c _ b1 _ _ vB (hempty _) hvB, Upsert.loop_nil]
    rfl
  have hdb1 : db1 = GenericDB.healthy (Store.put (c.addressKey b1.address) vB
      (Store.put (c.addressKey a1.address) vA [])) := by rw [h1, hup1]
  have hgetA : VersionCertificateDB.Get c db1 a1.address = .ok a1 := by
    rw [hdb1, VersionCertificateDB.Get_eq c _ rfl]
    simp only [GenericDB.healthy, Store.get_put_other _ _ _ _ hkeys, Store.get_put_same]
    exact hdA
  have hup2 : VersionCertificateDB.Upsert c db1 [a1] = (db1, .ok []) :=
    Upsert.single_stale c db1 (by rw [hdb1]; rfl) a1 a1 hgetA (Nat.le_refl _)
  have hdb2 : db2 = db1 := by rw [h2, hup2]
  obtain ⟨hall, hprune, hgetAll, hget⟩ :=
    scenario_two_records c (c.addressKey a1.address) (c.addressKey b1.address) vA vB a1.address
      b1.address a1 b1 (hk.key_under_prefix _) (hk.key_under_prefix _) (hk.address_of_key _)
      (hk.address_of_key _) rfl hdA hdB hAB hkeys _ (Store.put_pair _ _ vA vB hkeys)
  rw [← hdb1] at hall hprune
  have hdb3 : db3 = GenericDB.healthy [(c.addressKey b1.address, vB)] := by
    rw [h3, hdb2, hprune]
  refine ⟨by rw [hup1], hall, by rw [hup2], hdb2, ?_, ?_, ?_⟩
  · rw [hdb2, hprune]
  · rw [hdb3]
    exact hgetAll
  · rw [hdb3]
    exact hget

/-- The example of C18: the scenario on the sample certificates `A@1` and `B@1`. -/
theorem end_to_end_scenario_witness :
    (VersionCertificateDB.Upsert sampleCollaborators (GenericDB.healthy [])
        [sampleCert addrA 1, sampleCert addrB 1]).2
      = .ok [sampleCert addrA 1, sampleCert addrB 1] ∧
    (∃ certs, VersionCertificateDB.GetAll sampleCollaborators
        (sampleDB [sampleCert addrA 1, sampleCert addrB 1]) = (certs, .ok ()) ∧
      certs.Perm [sampleCert addrA 1, sampleCert addrB 1]) ∧
    (VersionCertificateDB.Upsert sampleCollaborators
        (sampleDB [sampleCert addrA 1, sampleCert addrB 1]) [sampleCert addrA 1]).2 = .ok [] ∧
    sampleDB [sampleCert addrA 1, sampleCert addrB 1]
      = sampleDB [sampleCert addrA 1, sampleCert addrB 1] ∧
    (VersionCertificateDB.Prune sampleCollaborators
        (sampleDB [sampleCert addrA 1, sampleCert addrB 1])
        (fun x => decide (x = (sampleCert addrB 1).address))).2 = .ok () ∧
    VersionCertificateDB.GetAll sampleCollaborators (sampleDB [sampleCert addrB 1])
      = ([sampleCert addrB 1], .ok ()) ∧
    VersionCertificateDB.Get sampleCollaborators (sampleDB [sampleCert addrB 1])
      (sampleCert addrA 1).address = .error .ErrNotFound :=
  end_to_end_scenario sampleCollaborators sampleCollaborators_lawfulKeys
    sampleCollaborators_lawfulCodec (sampleCert addrA 1) (sampleCert addrB 1)
    (sampleCert_wellFormed _ _) (sampleCert_wellFormed _ _) (by decide)
    (sampleDB [sampleCert addrA 1, sampleCert addrB 1])
    (sampleDB [sampleCert addrA 1, sampleCert addrB 1])
    (sampleDB [sampleCert addrB 1]) rfl rfl rfl

/-! ## Duplicate addresses in one batch -/

/-- C21: duplicate addresses in one batch resolve by input position.  Whenever `Upsert` succeeds,
the candidates it returns are those of the input that the database before the call accepts, each
judged against that database; under the key of any address the store then holds the encoding of
the last of them for that address in input order, which is the record read back when it is
well formed, and the record of the database before the call when none of them is for that
address; the database after the call is the one before it with the puts of the accepted
candidates committed in input order, a function of the database and the input. -/
theorem upsert_last_accepted_wins (c : Collaborators) (hk : c.LawfulKeys) (hc : c.LawfulCodec)
    (svdb : VersionCertificateDB) (cs acc : List VersionCertificate)
    (h : (VersionCertificateDB.Upsert c svdb cs).2 = .ok acc) (a : Address) :
    acc = cs.filter (accepts c svdb) ∧
    (∀ x, (acc.filter (fun y => decide (y.address = a))).getLast? = some x →
      (∃ b, encodeVersionCertificate c x = .ok b ∧
        (VersionCertificateDB.Upsert c svdb cs).1.db.get (c.addressKey a) = some b) ∧
      (x.WellFormed c →
        VersionCertificateDB.Get c (VersionCertificateDB.Upsert c svdb cs).1 a = .ok x)) ∧
    (acc.filter (fun y => decide (y.address = a)) = [] →
      (VersionCertificateDB.Upsert c svdb cs).1.db.get (c.addressKey a)
        = svdb.db.get (c.addressKey a) ∧
      VersionCertificateDB.Get c (VersionCertificateDB.Upsert c svdb cs).1 a
        = VersionCertificateDB.Get c svdb a) ∧
    (VersionCertificateDB.Upsert c svdb cs).1
      = { svdb with
          db := Batch.apply svdb.db (Upsert.stagedPuts c (cs.filter (accepts c svdb))) } := by
  obtain ⟨-, hup, henc⟩ := VersionCertificateDB.Upsert_ok c svdb cs acc h
  have hacc : acc = cs.filter (accepts c svdb) := by
    rw [hup] at h
    exact (Except.ok.inj h).symm
  obtain ⟨h1, h2⟩ := Upsert.stagedPuts_last c hk a (cs.filter (accepts c svdb)) svdb.db henc
  refine ⟨hacc, ?_, ?_, by rw [hup]⟩
  · intro x hx
    rw [hacc] at hx
    obtain ⟨b, hb, hget⟩ := h1 x hx
    have hdb : (VersionCertificateDB.Upsert c svdb cs).1.db.get (c.addressKey a) = some b := by
      rw [hup]
      exact hget
    refine ⟨⟨b, hb, hdb⟩, fun hwf => ?_⟩
    have hxmem : x ∈ cs.filter (accepts c svdb) :=
      (List.mem_filter.mp (List.mem_of_getLast?_eq_some hx)).1
    have hg : svdb.getFault = none :=
      VersionCertificateDB.getFault_of_accepts (List.mem_filter.mp hxmem).2
    have hg2 : (VersionCertificateDB.Upsert c svdb cs).1.getFault = none := by
      rw [hup]
      exact hg
    rw [VersionCertificateDB.Get_eq c _ hg2, hdb]
    exact decode_of_encode hc x hwf b hb
  · intro hnil
    rw [hacc] at hnil
    have hdb : (VersionCertificateDB.Upsert c svdb cs).1.db.get (c.addressKey a)
        = svdb.db.get (c.addressKey a) := by
      rw [hup]
      exact h2 hnil
    refine ⟨hdb, ?_⟩
    have hf : (VersionCertificateDB.Upsert c svdb cs).1.getFault = svdb.getFault := by
      rw [hup]
    unfold VersionCertificateDB.Get GenericDB.Get
    rw [hf, hdb]

/-- An example of C21: on the database that holds `A@3`, the batch `[A@7, A@2, A@5, B@1]` has
`A@7`, `A@5` and `B@1` accepted and leaves `A@5` as the record of `A`, the last accepted candidate
for `A`, and leaves `C` without a record as before. -/
theorem upsert_last_accepted_wins_witness :
    (VersionCertificateDB.Upsert sampleCollaborators (sampleDB [sampleCert addrA 3])
        [sampleCert addrA 7, sampleCert addrA 2, sampleCert addrA 5, sampleCert addrB 1]).2
      = .ok [sampleCert addrA 7, sampleCert addrA 5, sampleCert addrB 1] ∧
    VersionCertificateDB.Get sampleCollaborators
        (VersionCertificateDB.Upsert sampleCollaborators (sampleDB [sampleCert addrA 3])
          [sampleCert addrA 7, sampleCert addrA 2, sampleCert addrA 5, sampleCert addrB 1]).1
        addrA
      = .ok (sampleCert addrA 5) ∧
    VersionCertificateDB.Get sampleCollaborators
        (VersionCertificateDB.Upsert sampleCollaborators (sampleDB [sampleCert addrA 3])
          [sampleCert addrA 7, sampleCert addrA 2, sampleCert addrA 5, sampleCert addrB 1]).1
        addrC
      = VersionCertificateDB.Get sampleCollaborators (sampleDB [sampleCert addrA 3]) addrC :=
  ⟨rfl,
    ((upsert_last_accepted_wins sampleCollaborators sampleCollaborators_lawfulKeys
      sampleCollaborators_lawfulCodec (sampleDB [sampleCert addrA 3])
      [sampleCert addrA 7, sampleCert addrA 2, sampleCert addrA 5, sampleCert addrB 1]
      [sampleCert addrA 7, sampleCert addrA 5, sampleCert addrB 1] rfl addrA).2.1
        (sampleCert addrA 5) (by decide)).2 (sampleCert_wellFormed _ _),
    ((upsert_last_accepted_wins sampleCollaborators sampleCollaborators_lawfulKeys
      sampleCollaborators_lawfulCodec (sampleDB [sampleCert addrA 3])
      [sampleCert addrA 7, sampleCert addrA 2, sampleCert addrA 5, sampleCert addrB 1]
      [sampleCert addrA 7, sampleCert addrA 5, sampleCert addrB 1] rfl addrC).2.2.1
        (by decide)).2⟩

/-! ## Stores reached from the empty store -/

theorem Store.mem_put {key value : Bytes} {s : Store} {kv : Bytes × Bytes}
    (h : kv ∈ Store.put key value s) : kv = (key, value) ∨ kv ∈ s := by
  induction s with
  | nil =>
    simp only [Store.put, List.mem_singleton] at h
    exact Or.inl h
  | cons e rest ih =>
    obtain ⟨k, v⟩ := e
    by_cases hlt : key < k
    · simp only [Store.put, hlt, if_true] at h
      rcases List.mem_cons.mp h with h | h
      · exact Or.inl h
      · exact Or.inr h
    · by_cases heq : k = key
      · subst heq
        simp only [Store.put, hlt, if_false, if_true] at h
        rcases List.mem_cons.mp h with h | h
        · exact Or.inl h
        · exact Or.inr (List.mem_cons_of_mem _ h)
      · simp only [Store.put, hlt, heq, if_false] at h
        rcases List.mem_cons.mp h with h | h
        · exact Or.inr (h ▸ List.mem_cons_self _ _)
        · rcases ih h with h | h
          · exact Or.inl h
          · exact Or.inr (List.mem_cons_of_mem _ h)

/-- A put keeps the keys of the store strictly increasing. -/
theorem Store.pairwise_put (key value : Bytes) (s : Store)
    (h : s.Pairwise (fun a b => a.1 < b.1)) :
    (Store.put key value s).Pairwise (fun a b => a.1 < b.1) := by
  induction s with
  | nil => simp [Store.put]
  | cons e rest ih =>
    obtain ⟨k, v⟩ := e
    rw [List.pairwise_cons] at h
    obtain ⟨hhead, htail⟩ := h
    by_cases hlt : key < k
    · simp only [Store.put, hlt, if_true]
      refine List.pairwise_cons.mpr ⟨?_, List.pairwise_cons.mpr ⟨hhead, htail⟩⟩
      intro e he
      rcases List.mem_cons.mp he with rfl | he
      · exact hlt
      · exact lt_trans hlt (hhead e he)
    · by_cases heq : k = key
      · subst heq
        simp only [Store.put, hlt, if_false, if_true]
        exact List.pairwise_cons.mpr ⟨hhead, htail⟩
      · simp only [Store.put, hlt, heq, if_false]
        refine List.pairwise_cons.mpr ⟨?_, ih htail⟩
        intro e he
        rcases Store.mem_put he with rfl | he
        · exact lt_of_le_of_ne (not_lt.mp hlt) heq
        · exact hhead e he

/-- Two entries of a store with strictly increasing keys that have the same key are the same
entry. -/
theorem Store.eq_of_key_eq {s : Store} (h : s.Pairwise (fun a b => a.1 < b.1))
    {kv1 kv2 : Bytes × Bytes} (h1 : kv1 ∈ s) (h2 : kv2 ∈ s) (hkey : kv1.1 = kv2.1) :
    kv1 = kv2 := by
  induction s with
  | nil => simp at h1
  | cons e rest ih =>
    rw [List.pairwise_cons] at h
    obtain ⟨hhead, htail⟩ := h
    rcases List.mem_cons.mp h1 with he1 | h1
    · rcases List.mem_cons.mp h2 with he2 | h2
      · rw [he1, he2]
      · have hlt := hhead kv2 h2
        rw [← he1, hkey] at hlt
        exact absurd hlt (lt_irrefl _)
    · rcases List.mem_cons.mp h2 with he2 | h2
      · have hlt := hhead kv1 h1
        rw [← he2, hkey] at hlt
        exact absurd hlt (lt_irrefl _)
      · exact ih htail h1 h2

/-- One committed operation that keeps records under the keys of their addresses keeps the store
consistent. -/
theorem Store.Consistent.applyOp {c : Collaborators} {s : Store} (h : Store.Consistent c s)
    (op : BatchOp) (hop : op.keyOfRecord c) : Store.Consistent c (BatchOp.apply s op) := by
  cases op with
  | Put key value =>
    obtain ⟨x, hx, hkey⟩ := hop
    refine ⟨fun kv hkv => ?_, Store.pairwise_put key value s h.2⟩
    rcases Store.mem_put hkv with rfl | hkv
    · exact ⟨x, hx, hkey⟩
    · exact h.1 kv hkv
  | Delete key =>
    refine ⟨fun kv hkv => h.1 kv (List.mem_of_mem_filter hkv), ?_⟩
    exact List.Pairwise.sublist (List.filter_sublist _) h.2

/-- A committed batch of operations that keep records under the keys of their addresses keeps the
store consistent. -/
theorem Store.Consistent.applyBatch {c : Collaborators} (batch : Batch) :
    ∀ s : Store, Store.Consistent c s → (∀ op ∈ batch, op.keyOfRecord c) →
      Store.Consistent c (Batch.apply s batch) := by
  induction batch with
  | nil => intro s h _; exact h
  | cons op rest ih =>
    intro s h hops
    have hstep : Batch.apply s (op :: rest) = Batch.apply (BatchOp.apply s op) rest := by
      simp [Batch.apply]
    rw [hstep]
    exact ih _ (h.applyOp op (hops op (List.mem_cons_self _ _)))
      (fun o ho => hops o (List.mem_cons_of_mem _ ho))

theorem Upsert.stagedPuts_keyOfRecord (c : Collaborators) (xs : List VersionCertificate) :
    ∀ op ∈ Upsert.stagedPuts c xs, op.keyOfRecord c := by
  induction xs with
  | nil => intro op h; simp [Upsert.stagedPuts] at h
  | cons x rest ih =>
    intro op h
    cases henc : encodeVersionCertificate c x with
    | error err =>
      simp only [Upsert.stagedPuts, henc] at h
      exact ih op h
    | ok b =>
      simp only [Upsert.stagedPuts, henc, List.mem_cons] at h
      rcases h with rfl | h
      · exact ⟨x, henc, rfl⟩
      · exact ih op h

/-- Whatever the call returns, a step leaves a consistent store consistent. -/
theorem StoreStep.run_consistent (c : Collaborators) (svdb : VersionCertificateDB)
    (h : Store.Consistent c svdb.db) (step : StoreStep) :
    Store.Consistent c (StoreStep.run c svdb step).db := by
  have hbatch : ∀ next : VersionCertificateDB,
      (∃ batch : Batch, (∀ op ∈ batch, op.keyOfRecord c) ∧
        next = { svdb with db := Batch.apply svdb.db batch }) →
      Store.Consistent c next.db := by
    rintro next ⟨batch, hops, rfl⟩
    exact Store.Consistent.applyBatch batch svdb.db h hops
  cases step with
  | Upsert cs =>
    apply hbatch
    show ∃ batch : Batch, (∀ op ∈ batch, op.keyOfRecord c) ∧
      (VersionCertificateDB.Upsert c svdb cs).1 = { svdb with db := Batch.apply svdb.db batch }
    cases hres : (VersionCertificateDB.Upsert c svdb cs).2 with
    | ok acc =>
      obtain ⟨-, hup, -⟩ := VersionCertificateDB.Upsert_ok c svdb cs acc hres
      exact ⟨_, Upsert.stagedPuts_keyOfRecord c _, by rw [hup]⟩
    | error err =>
      refine ⟨[], by simp, ?_⟩
      rw [← GenericDB.apply_nil]
      rw [VersionCertificateDB.Upsert_eq] at hres ⊢
      cases hloop : Upsert.loop c svdb (cs.map GenericEntry.versionCertificate) ([], []) with
      | error err2 => rfl
      | ok st =>
        cases hw : svdb.writeFault with
        | some code => rfl
        | none => simp [hloop, hw] at hres
  | Remove a =>
    apply hbatch
    show ∃ batch : Batch, (∀ op ∈ batch, op.keyOfRecord c) ∧
      (VersionCertificateDB.Remove c svdb a).1 = { svdb with db := Batch.apply svdb.db batch }
    rcases Option.eq_none_or_eq_some svdb.writeFault with hw | ⟨code, hw⟩
    · refine ⟨[BatchOp.Delete (c.addressKey a)], ?_, ?_⟩
      · intro op hop
        rw [List.mem_singleton.mp hop]
        exact trivial
      · simp [VersionCertificateDB.Remove, GenericDB.Write, hw]
    · have hsame : (VersionCertificateDB.Remove c svdb a).1 = svdb := by
        simp [VersionCertificateDB.Remove, GenericDB.Write, hw]
      exact ⟨[], by simp, hsame.trans (GenericDB.apply_nil svdb)⟩
  | Prune addressesToKeep =>
    apply hbatch
    show ∃ batch : Batch, (∀ op ∈ batch, op.keyOfRecord c) ∧
      (VersionCertificateDB.Prune c svdb addressesToKeep).1
        = { svdb with db := Batch.apply svdb.db batch }
    cases hall : VersionCertificateDB.allValuesDecode c svdb with
    | false =>
      obtain ⟨kv, -, err, -, hvisit⟩ :=
        Prune.visit_error c addressesToKeep (VersionCertificateDB.entries c svdb) [] hall
      refine ⟨[], by simp, ?_⟩
      rw [← GenericDB.apply_nil]
      unfold VersionCertificateDB.entries at hvisit
      unfold VersionCertificateDB.Prune VersionCertificateDB.iterate GenericDB.Iterate
      cases hv : GenericDB.visit (iterate.onDBEntry c (Prune.onEntry c addressesToKeep))
          (svdb.db.filter (fun kv => c.dbAddressPrefix.isPrefixOf kv.1)) [] with
      | mk st res =>
        rw [hv] at hvisit
        simp only at hvisit
        subst hvisit
        rfl
    | true =>
      have hvisit :=
        Prune.visit_ok c addressesToKeep (VersionCertificateDB.entries c svdb) [] hall
      unfold VersionCertificateDB.entries at hvisit
      rcases Option.eq_none_or_eq_some svdb.iterFault with hi | ⟨code, hi⟩
      · rcases Option.eq_none_or_eq_some svdb.writeFault with hw | ⟨code, hw⟩
        · refine ⟨(Prune.deletedKeys c addressesToKeep
            (VersionCertificateDB.entries c svdb)).map BatchOp.Delete, ?_, ?_⟩
          · intro op hop
            obtain ⟨key, -, rfl⟩ := List.mem_map.mp hop
            exact trivial
          · simp [VersionCertificateDB.Prune, VersionCertificateDB.iterate, GenericDB.Iterate,
              hvisit, hi, GenericDB.Write, hw, VersionCertificateDB.entries]
        · have hsame : (VersionCertificateDB.Prune c svdb addressesToKeep).1 = svdb := by
            simp [VersionCertificateDB.Prune, VersionCertificateDB.iterate, GenericDB.Iterate,
              hvisit, hi, GenericDB.Write, hw]
          exact ⟨[], by simp, hsame.trans (GenericDB.apply_nil svdb)⟩
      · have hsame : (VersionCertificateDB.Prune c svdb addressesToKeep).1 = svdb := by
          simp [VersionCertificateDB.Prune, VersionCertificateDB.iterate, GenericDB.Iterate,
            hvisit, hi]
        exact ⟨[], by simp, hsame.trans (GenericDB.apply_nil svdb)⟩
  | engineHealth g w i => exact h

/-- Every store reached from a consistent store is consistent. -/
theorem reached_consistent (c : Collaborators) (steps : List StoreStep) :
    ∀ start : VersionCertificateDB, Store.Consistent c start.db →
      Store.Consistent c (reached c start steps).db := by
  induction steps with
  | nil => intro start h; exact h
  | cons step rest ih =>
    intro start h
    exact ih _ (StoreStep.run_consistent c start h step)

/-- A value that is the encoding of a certificate decodes, if at all, to a record of the address
of that certificate. -/
theorem decode_address_of_encode {c : Collaborators} (hc : c.LawfulCodec)
    (x r : VersionCertificate) (b : Bytes) (hb : encodeVersionCertificate c x = .ok b)
    (hr : decodeVersionCertificate c b = .ok r) : r.address = x.address := by
  obtain ⟨b2, hb2, hdec⟩ := hc.rlp_roundtrip
    { Address := x.address, PublicKey := c.FromECDSAPub x.pubKey, Version := x.Version,
      Signature := x.Signature }
  have hbb : b2 = b := by
    simp only [encodeVersionCertificate, hb2] at hb
    exact Except.ok.inj hb
  subst hbb
  simp only [decodeVersionCertificate, hdec] at hr
  cases hpk : c.UnmarshalPubkey (c.FromECDSAPub x.pubKey) with
  | error err => simp [hpk] at hr
  | ok pk =>
    simp only [hpk] at hr
    have := Except.ok.inj hr
    rw [← this]
    rfl

/-- In a consistent store every value that decodes stands under the key of the address of the
decoded record. -/
theorem Store.Consistent.key_of_decoded {c : Collaborators} (hc : c.LawfulCodec) {s : Store}
    (h : Store.Consistent c s) {kv : Bytes × Bytes} (hkv : kv ∈ s) {r : VersionCertificate}
    (hr : decodeVersionCertificate c kv.2 = .ok r) : kv.1 = c.addressKey r.address := by
  obtain ⟨x, hx, hkey⟩ := h.1 kv hkv
  rw [hkey, decode_address_of_encode hc x r kv.2 hx hr]

/-- Visitors that agree on the entries visited leave the same state and return the same. -/
theorem GenericDB.visit_congr {σ : Type} (f g : σ → Bytes → Bytes → Except Error σ)
    (visited : List (Bytes × Bytes)) :
    (∀ kv ∈ visited, ∀ st, f st kv.1 kv.2 = g st kv.1 kv.2) →
      ∀ st, GenericDB.visit f visited st = GenericDB.visit g visited st := by
  induction visited with
  | nil => intro _ st; rfl
  | cons kv rest ih =>
    intro h st
    obtain ⟨k, v⟩ := kv
    have hkv := h (k, v) (List.mem_cons_self _ _) st
    simp only at hkv
    simp only [GenericDB.visit, hkv]
    cases g st k v with
    | error err => rfl
    | ok st2 => exact ih (fun e he => h e (List.mem_cons_of_mem _ he)) st2

/-- A property of the state that every successful visit keeps holds when the visits end. -/
theorem GenericDB.visit_invariant {σ : Type} (P : σ → Prop)
    (f : σ → Bytes → Bytes → Except Error σ) (visited : List (Bytes × Bytes)) :
    (∀ kv ∈ visited, ∀ st st2, P st → f st kv.1 kv.2 = .ok st2 → P st2) →
      ∀ st, P st → P (GenericDB.visit f visited st).1 := by
  induction visited with
  | nil => intro _ st hst; exact hst
  | cons kv rest ih =>
    intro h st hst
    obtain ⟨k, v⟩ := kv
    cases hf : f st k v with
    | error err =>
      simp only [GenericDB.visit, hf]
      exact hst
    | ok st2 =>
      simp only [GenericDB.visit, hf]
      exact ih (fun e he => h e (List.mem_cons_of_mem _ he)) st2
        (h (k, v) (List.mem_cons_self _ _) st st2 hst hf)

/-- The state that an iteration leaves is the state that its visits leave. -/
theorem GenericDB.Iterate_state {σ : Type} (gdb : GenericDB) (keyPrefix : Bytes)
    (f : σ → Bytes → Bytes → Except Error σ) (init : σ) :
    (GenericDB.Iterate gdb keyPrefix f init).1
      = (GenericDB.visit f (gdb.db.filter (fun kv => keyPrefix.isPrefixOf kv.1)) init).1 := by
  unfold GenericDB.Iterate
  cases GenericDB.visit f (gdb.db.filter (fun kv => keyPrefix.isPrefixOf kv.1)) init with
  | mk st res =>
    cases res with
    | error err => rfl
    | ok u =>
      cases gdb.iterFault with
      | none => rfl
      | some code => rfl

theorem InfoMap.mem_set {key : String} {value : VersionCertificateEntryInfo} {m : InfoMap}
    {e : String × VersionCertificateEntryInfo} (h : e ∈ InfoMap.set key value m) :
    e = (key, value) ∨ e ∈ m := by
  induction m with
  | nil =>
    simp only [InfoMap.set, List.mem_singleton] at h
    exact Or.inl h
  | cons kv rest ih =>
    obtain ⟨k, v⟩ := kv
    by_cases heq : k = key
    · simp only [InfoMap.set, heq, if_true] at h
      rcases List.mem_cons.mp h with h | h
      · exact Or.inl h
      · exact Or.inr (List.mem_cons_of_mem _ h)
    · simp only [InfoMap.set, heq, if_false] at h
      rcases List.mem_cons.mp h with h | h
      · exact Or.inr (h ▸ List.mem_cons_self _ _)
      · rcases ih h with h | h
        · exact Or.inl h
        · exact Or.inr (List.mem_cons_of_mem _ h)

/-- C22: key and record address agree.  In every database reached from a store that holds no
entry by any sequence of calls of `Upsert`, `Remove` and `Prune`, whatever the calls return and
whatever the engine reports in between: (i) every stored value is the encoding of a certificate
and stands under the key of the address of that certificate, and when it decodes, under the key
of the address of the decoded record; (ii) two stored entries whose records have the same address
are the same entry; (iii) the address that `iterate` hands to its visitor is the address of the
decoded record, so that `iterate` does the same with a visitor that is handed the address of the
record instead; (iv) in the map that `Info` returns every key is the `Address` of its value. -/
theorem reachable_key_consistency (c : Collaborators) (hk : c.LawfulKeys) (hc : c.LawfulCodec)
    (start : VersionCertificateDB) (hstart : start.db = []) (steps : List StoreStep) :
    (∀ kv ∈ (reached c start steps).db,
      (∃ x : VersionCertificate, encodeVersionCertificate c x = .ok kv.2 ∧
        kv.1 = c.addressKey x.address) ∧
      ∀ r, decodeVersionCertificate c kv.2 = .ok r → kv.1 = c.addressKey r.address) ∧
    (∀ kv1 ∈ (reached c start steps).db, ∀ kv2 ∈ (reached c start steps).db, ∀ r1 r2,
      decodeVersionCertificate c kv1.2 = .ok r1 → decodeVersionCertificate c kv2.2 = .ok r2 →
      r1.address = r2.address → kv1 = kv2) ∧
    ((∀ kv ∈ VersionCertificateDB.entries c (reached c start steps), ∀ r,
        decodeVersionCertificate c kv.2 = .ok r → c.BytesToAddress kv.1 = r.address) ∧
      ∀ (σ : Type) (onEntry : σ → Address → VersionCertificate → Except Error σ) (init : σ),
        VersionCertificateDB.iterate c (reached c start steps) onEntry init
          = VersionCertificateDB.iterate c (reached c start steps)
              (fun st _ entry => onEntry st entry.address entry) init) ∧
    (∀ e ∈ (VersionCertificateDB.Info c (reached c start steps)).1, e.1 = e.2.Address) := by
  have hcons : Store.Consistent c (reached c start steps).db := by
    apply reached_consistent
    rw [hstart]
    exact ⟨fun kv hkv => by simp at hkv, List.Pairwise.nil⟩
  have hvisitor : ∀ kv ∈ (reached c start steps).db.filter
      (fun kv => c.dbAddressPrefix.isPrefixOf kv.1), ∀ r,
      decodeVersionCertificate c kv.2 = .ok r → c.BytesToAddress kv.1 = r.address := by
    intro kv hkv r hr
    rw [hcons.key_of_decoded hc (List.mem_of_mem_filter hkv) hr, hk.address_of_key]
  refine ⟨fun kv hkv => ⟨hcons.1 kv hkv, fun r hr => hcons.key_of_decoded hc hkv hr⟩, ?_,
    ⟨hvisitor, ?_⟩, ?_⟩
  · intro kv1 h1 kv2 h2 r1 r2 hr1 hr2 haddr
    apply Store.eq_of_key_eq hcons.2 h1 h2
    rw [hcons.key_of_decoded hc h1 hr1, hcons.key_of_decoded hc h2 hr2, haddr]
  · intro σ onEntry init
    unfold VersionCertificateDB.iterate GenericDB.Iterate
    rw [GenericDB.visit_congr (iterate.onDBEntry c onEntry)
      (iterate.onDBEntry c (fun st _ entry => onEntry st entry.address entry))]
    intro kv hkv st
    unfold iterate.onDBEntry
    cases hdec : decodeVersionCertificate c kv.2 with
    | error err => rfl
    | ok entry =>
      simp only
      rw [hvisitor kv hkv entry hdec]
  · unfold VersionCertificateDB.Info VersionCertificateDB.iterate
    rw [GenericDB.Iterate_state]
    apply GenericDB.visit_invariant
      (fun m : InfoMap => ∀ e ∈ m, e.1 = e.2.Address)
    · intro kv hkv st st2 hst hf e he
      unfold iterate.onDBEntry at hf
      cases hdec : decodeVersionCertificate c kv.2 with
      | error err => simp [hdec] at hf
      | ok entry =>
        simp only [hdec, Info.onEntry] at hf
        rw [← Except.ok.inj hf] at he
        rcases InfoMap.mem_set he with rfl | he
        · simp only
          rw [hvisitor kv hkv entry hdec]
        · exact hst e he
    · intro e he
      simp at he

/-- An example of C22: the database reached from the empty one by the sample steps holds `A@4`
and `C@1`, each under the key of its address, and `Info` returns for each of them an entry whose
key is its `Address`. -/
theorem reachable_key_consistency_witness :
    emptyDB.db = [] ∧
    VersionCertificateDB.GetAll sampleCollaborators
        (reached sampleCollaborators emptyDB sampleSteps)
      = ([sampleCert addrA 4, sampleCert addrC 1], .ok ()) ∧
    VersionCertificateDB.Info sampleCollaborators
        (reached sampleCollaborators emptyDB sampleSteps)
      = ([(sampleHex addrA, { Address := sampleHex addrA, Version := 4 }),
          (sampleHex addrC, { Address := sampleHex addrC, Version := 1 })], .ok ()) ∧
    (∀ kv ∈ (reached sampleCollaborators emptyDB sampleSteps).db, ∀ r,
      decodeVersionCertificate sampleCollaborators kv.2 = .ok r →
        kv.1 = sampleCollaborators.addressKey r.address) ∧
    (∀ e ∈ (VersionCertificateDB.Info sampleCollaborators
        (reached sampleCollaborators emptyDB sampleSteps)).1, e.1 = e.2.Address) :=
  ⟨rfl, rfl, rfl,
    fun kv hkv => ((reachable_key_consistency sampleCollaborators sampleCollaborators_lawfulKeys
      sampleCollaborators_lawfulCodec emptyDB rfl sampleSteps).1 kv hkv).2,
    (reachable_key_consistency sampleCollaborators sampleCollaborators_lawfulKeys
      sampleCollaborators_lawfulCodec emptyDB rfl sampleSteps).2.2.2⟩

end Enodes

namespace Core

/-! ## Lemmas on the price comparator -/

end Core

namespace Vm

/-! ## Lemmas on the structured logger -/

/-- A call of `CaptureState` when the limit is reached: the error, and the logger as it was. -/
theorem StructLogger.CaptureState_reached (ops : OpCodes) (l : StructLogger) (env : EVM)
    (pc : Nat) (op : OpCode) (gas cost : Nat) (memory : Memory) (stack : Stack)
    (rStack : Option ReturnStack) (contract : Contract) (depth : Int) (err : Option VmError)
    (h : l.cfg.Limit ≠ 0 ∧ l.cfg.Limit ≤ (l.logs.length : Int)) :
    StructLogger.CaptureState ops l env pc op gas cost memory stack rStack contract depth err
      = (l, some .ErrTraceLimitReached) := by
  unfold StructLogger.CaptureState
  rw [if_pos h]

/-- A call of `CaptureState` when the limit is not reached: no error, one log more, and the
configuration as it was. -/
theorem StructLogger.CaptureState_appends (ops : OpCodes) (l : StructLogger) (env : EVM)
    (pc : Nat) (op : OpCode) (gas cost : Nat) (memory : Memory) (stack : Stack)
    (rStack : Option ReturnStack) (contract : Contract) (depth : Int) (err : Option VmError)
    (h : ¬ (l.cfg.Limit ≠ 0 ∧ l.cfg.Limit ≤ (l.logs.length : Int))) :
    ∃ log tracked,
      StructLogger.CaptureState ops l env pc op gas cost memory stack rStack contract depth err
        = ({ l with storage := tracked, logs := l.logs ++ [log] }, none) := by
  unfold StructLogger.CaptureState
  rw [if_neg h]
  exact ⟨_, _, rfl⟩

/-- A call of `CaptureState` keeps the configuration, and keeps the number of logs within a
positive limit. -/
theorem StructLogger.capture_within (ops : OpCodes) (l : StructLogger) (call : Call)
    (hpos : 0 < l.cfg.Limit) (hlen : (l.logs.length : Int) ≤ l.cfg.Limit) :
    (StructLogger.capture ops l call).1.cfg = l.cfg ∧
      (((StructLogger.capture ops l call).1.logs.length : Nat) : Int) ≤ l.cfg.Limit := by
  unfold StructLogger.capture
  by_cases h : l.cfg.Limit ≠ 0 ∧ l.cfg.Limit ≤ (l.logs.length : Int)
  · rw [StructLogger.CaptureState_reached ops l _ _ _ _ _ _ _ _ _ _ _ h]
    exact ⟨rfl, hlen⟩
  · obtain ⟨log, tracked, heq⟩ := StructLogger.CaptureState_appends ops l call.env call.pc
      call.op call.gas call.cost call.memory call.stack call.rStack call.contract call.depth
      call.err h
    rw [heq]
    refine ⟨rfl, ?_⟩
    have hlt : (l.logs.length : Int) < l.cfg.Limit := by
      by_contra hge
      exact h ⟨by omega, by omega⟩
    simp only [List.length_append, List.length_singleton]
    push_cast
    omega

theorem StructLogger.captureAll_within (ops : OpCodes) (calls : List Call) :
    ∀ l : StructLogger, 0 < l.cfg.Limit → (l.logs.length : Int) ≤ l.cfg.Limit →
      (StructLogger.captureAll ops l calls).cfg = l.cfg ∧
        (((StructLogger.captureAll ops l calls).logs.length : Nat) : Int) ≤ l.cfg.Limit := by
  induction calls with
  | nil => intro l _ hlen; exact ⟨rfl, hlen⟩
  | cons call rest ih =>
    intro l hpos hlen
    obtain ⟨hcfg, hlen2⟩ := StructLogger.capture_within ops l call hpos hlen
    have hstep : StructLogger.captureAll ops l (call :: rest)
        = StructLogger.captureAll ops (StructLogger.capture ops l call).1 rest := rfl
    rw [hstep]
    obtain ⟨h1, h2⟩ := ih (StructLogger.capture ops l call).1 (by rw [hcfg]; exact hpos)
      (by rw [hcfg]; exact hlen2)
    rw [hcfg] at h1 h2
    exact ⟨h1, h2⟩

/-! ## The specified property -/

/-- C20: the trace limit.  For a logger whose limit `L` is positive and that holds at most `L`
logs, as a new logger does, the number of logs never exceeds `L` after any sequence of calls of
`CaptureState`; a call made when `L` logs are held returns `ErrTraceLimitReached` and leaves the
logger, its logs and its tracked storage included, as it was; and with the limit 0 every call
returns no error and appends exactly one log. -/
theorem trace_limit (ops : OpCodes) (l : StructLogger) :
    (0 < l.cfg.Limit → (l.logs.length : Int) ≤ l.cfg.Limit →
      ∀ calls, (((StructLogger.captureAll ops l calls).logs.length : Nat) : Int)
        ≤ l.cfg.Limit) ∧
    (0 < l.cfg.Limit → (l.logs.length : Int) = l.cfg.Limit →
      ∀ env pc op gas cost memory stack rStack contract depth err,
        StructLogger.CaptureState ops l env pc op gas cost memory stack rStack contract depth
          err = (l, some .ErrTraceLimitReached)) ∧
    (l.cfg.Limit = 0 →
      ∀ env pc op gas cost memory stack rStack contract depth err,
        ∃ log,
          (StructLogger.CaptureState ops l env pc op gas cost memory stack rStack contract depth
            err).2 = none ∧
          (StructLogger.CaptureState ops l env pc op gas cost memory stack rStack contract depth
            err).1.logs = l.logs ++ [log]) := by
  refine ⟨fun hpos hlen calls => (StructLogger.captureAll_within ops calls l hpos hlen).2,
    ?_, ?_⟩
  · intro hpos hlen env pc op gas cost memory stack rStack contract depth err
    exact StructLogger.CaptureState_reached ops l env pc op gas cost memory stack rStack
      contract depth err ⟨by omega, by omega⟩
  · intro hzero env pc op gas cost memory stack rStack contract depth err
    obtain ⟨log, tracked, heq⟩ := StructLogger.CaptureState_appends ops l env pc op gas cost
      memory stack rStack contract depth err (fun h => h.1 hzero)
    exact ⟨log, by rw [heq], by rw [heq]⟩

/-- The example of C20: a new logger of limit 2 holds at most 2 logs after three calls, the third
of which returns `ErrTraceLimitReached` and changes nothing; a new logger of limit 0 takes the
call without error. -/
theorem trace_limit_witness :
    (((StructLogger.captureAll sampleOpCodes (NewStructLogger (some (sampleConfig 2)))
        [sampleCall, sampleCall, sampleCall]).logs.length : Nat) : Int)
      ≤ (NewStructLogger (some (sampleConfig 2))).cfg.Limit ∧
    StructLogger.CaptureState sampleOpCodes
        (StructLogger.captureAll sampleOpCodes (NewStructLogger (some (sampleConfig 2)))
          [sampleCall, sampleCall])
        sampleCall.env sampleCall.pc sampleCall.op sampleCall.gas sampleCall.cost
        sampleCall.memory sampleCall.stack sampleCall.rStack sampleCall.contract
        sampleCall.depth sampleCall.err
      = (StructLogger.captureAll sampleOpCodes (NewStructLogger (some (sampleConfig 2)))
          [sampleCall, sampleCall], some .ErrTraceLimitReached) ∧
    (∃ log,
      (StructLogger.CaptureState sampleOpCodes (NewStructLogger (some (sampleConfig 0)))
        sampleCall.env sampleCall.pc sampleCall.op sampleCall.gas sampleCall.cost
        sampleCall.memory sampleCall.stack sampleCall.rStack sampleCall.contract
        sampleCall.depth sampleCall.err).2 = none ∧
      (StructLogger.CaptureState sampleOpCodes (NewStructLogger (some (sampleConfig 0)))
        sampleCall.env sampleCall.pc sampleCall.op sampleCall.gas sampleCall.cost
        sampleCall.memory sampleCall.stack sampleCall.rStack sampleCall.contract
        sampleCall.depth sampleCall.err).1.logs
        = (NewStructLogger (some (sampleConfig 0))).logs ++ [log]) :=
  ⟨(trace_limit sampleOpCodes (NewStructLogger (some (sampleConfig 2)))).1 (by decide)
      (by decide) [sampleCall, sampleCall, sampleCall],
    (trace_limit sampleOpCodes
      (StructLogger.captureAll sampleOpCodes (NewStructLogger (some (sampleConfig 2)))
        [sampleCall, sampleCall])).2.1 (by decide) (by decide) _ _ _ _ _ _ _ _ _ _ _,
    (trace_limit sampleOpCodes (NewStructLogger (some (sampleConfig 0)))).2.2 rfl
      _ _ _ _ _ _ _ _ _ _ _⟩

/-! ## The return stack in a log -/

/-- The log appended by a call of `CaptureState` has an empty `ReturnStack`, whatever the return
stack of the call holds, and its `Stack` is the data stack of the call unless the configuration
disables it. -/
theorem StructLogger.CaptureState_returnStack (ops : OpCodes) (l : StructLogger) (env : EVM)
    (pc : Nat) (op : OpCode) (gas cost : Nat) (memory : Memory) (stack : Stack)
    (rStack : Option ReturnStack) (contract : Contract) (depth : Int) (err : Option VmError)
    (h : ¬ (l.cfg.Limit ≠ 0 ∧ l.cfg.Limit ≤ (l.logs.length : Int))) :
    ∃ log,
      (StructLogger.CaptureState ops l env pc op gas cost memory stack rStack contract depth
        err).1.logs = l.logs ++ [log] ∧
      log.ReturnStack = [] ∧
      log.Stack = (if !l.cfg.DisableStack then stack.data else []) := by
  unfold StructLogger.CaptureState
  rw [if_neg h]
  exact ⟨_, rfl, rfl, rfl⟩

/-- C23 (the code departs from it): a logger with `DisableStack = false` and no limit, called
once with the data stack `[7, 3]` and the return stack `[4]`, appends without error one log
whose `Stack` is `[7, 3]` and whose `ReturnStack` is empty, not `[4]`. -/
theorem return_stack_not_captured :
    (NewStructLogger (some (sampleConfig 0))).cfg.DisableStack = false ∧
    (NewStructLogger (some (sampleConfig 0))).cfg.Limit = 0 ∧
    sampleCall.stack.data = [7, 3] ∧
    sampleCall.rStack.map (fun rs => rs.data) = some [4] ∧
    (StructLogger.CaptureState sampleOpCodes (NewStructLogger (some (sampleConfig 0)))
      sampleCall.env sampleCall.pc sampleCall.op sampleCall.gas sampleCall.cost
      sampleCall.memory sampleCall.stack sampleCall.rStack sampleCall.contract
      sampleCall.depth sampleCall.err).2 = none ∧
    (StructLogger.CaptureState sampleOpCodes (NewStructLogger (some (sampleConfig 0)))
      sampleCall.env sampleCall.pc sampleCall.op sampleCall.gas sampleCall.cost
      sampleCall.memory sampleCall.stack sampleCall.rStack sampleCall.contract
      sampleCall.depth sampleCall.err).1.logs.map (fun log => (log.Stack, log.ReturnStack))
      = [([7, 3], [])] :=
  ⟨rfl, rfl, rfl, rfl, rfl, rfl⟩

end Vm
